import Mathlib

set_option autoImplicit false

/-!
Verification of the quick-react-code repository core:
`src/utility/NaryTree.js` (ordered n-ary tree container) and
`src/utility/QuickReact.js` (markup lexer/parser and attribute resolver).

JavaScript reference semantics are modelled with an explicit heap:
an `NaryNode` object reference becomes a `NodeId` (a `Nat`), and the heap maps
ids to node records.  Object identity (`===` on nodes) is id equality; `===`
on stored primitive values is value equality.  Heap entries are never removed:
a JavaScript object stays alive while referenced, and the source never frees
nodes, it only unlinks them.  Fallible operations return `Except JSErr`;
loops of the source that would diverge on malformed (cyclic) heaps are given
fuel, and fuel exhaustion is reported as `JSErr.outOfFuel` (proved unreachable
for well-formed trees).
-/

namespace QRC

/-- The JavaScript error kinds thrown by the sources (plus `outOfFuel`, which
models non-termination of a source loop on heaps no well-formed tree produces). -/
inductive JSErr where
  | typeError (msg : String)
  | rangeError (msg : String)
  | referenceError (msg : String)
  | syntaxError (msg : String)
  | outOfFuel
deriving DecidableEq, Repr

/-- A JavaScript object reference to an `NaryNode`. -/
abbrev NodeId := Nat

/-- The mutable fields of an `NaryNode` (`src/utility/NaryTree.js` lines 5-31):
a stored value and an ordered array of child references. -/
structure NodeData (α : Type) where
  value : α
  children : List NodeId
deriving DecidableEq, Repr

/-- The JavaScript object heap restricted to `NaryNode` objects. -/
def Heap (α : Type) : Type := NodeId → Option (NodeData α)

/-- Write a node record at an id. -/
def Heap.set {α : Type} (h : Heap α) (i : NodeId) (d : NodeData α) : Heap α :=
  fun j => if j = i then some d else h j

/-- The empty heap. -/
def Heap.empty {α : Type} : Heap α := fun _ => none

/-- The state of an `NaryTree` instance (`src/utility/NaryTree.js` lines 38-45):
`_root` (absent both initially and after `clear`), `_size`, `_modCount`,
together with the heap of all `NaryNode` objects ever allocated and the
allocation counter `next` (all allocated ids are `< next`). -/
structure NaryTreeSt (α : Type) where
  heap : Heap α
  next : NodeId
  root? : Option NodeId
  size : Nat
  modCount : Nat

/-- `new NaryTree()`: empty tree over the empty heap. -/
def emptyNaryTree (α : Type) : NaryTreeSt α :=
  { heap := Heap.empty, next := 0, root? := none, size := 0, modCount := 0 }

namespace NaryTreeSt

variable {α : Type}

/-- Children array of a node reference. In the source `node.children` is always
defined because node references always denote live `NaryNode` objects; a
dangling id (never produced by the operations) reads as `[]`. -/
def childrenOf (h : Heap α) (n : NodeId) : List NodeId :=
  ((h n).map NodeData.children).getD []

/-- `add(childObj)` (lines 49-70): if the tree is empty (`_size === 0`) the new
node becomes the root, otherwise it is appended to the root's children.
The `childObj === undefined/null` guard cannot fire here because values have
type `α`; the error branch models `this._root.children` crashing when `_size`
is nonzero while `_root` is absent (a state the operations never produce). -/
def add (v : α) (t : NaryTreeSt α) : Except JSErr (NaryTreeSt α) :=
  if t.size = 0 then
    .ok { heap := t.heap.set t.next ⟨v, []⟩, next := t.next + 1,
          root? := some t.next, size := t.size + 1, modCount := t.modCount + 1 }
  else
    match t.root? with
    | none => .error (.typeError "cannot read children of undefined root")
    | some r =>
      match t.heap r with
      | none => .error (.typeError "dangling root reference")
      | some d =>
        .ok { heap := (t.heap.set t.next ⟨v, []⟩).set r ⟨d.value, d.children ++ [t.next]⟩,
              next := t.next + 1, root? := t.root?,
              size := t.size + 1, modCount := t.modCount + 1 }

/-- `addAsFirstChild(childObj, parent)` (lines 75-87): `unshift` the new node
onto `parent.children`.  The `parent instanceof NaryNode` guard becomes: the
id must denote an allocated node. The parent is not required to be in the tree. -/
def addAsFirstChild (v : α) (p : NodeId) (t : NaryTreeSt α) : Except JSErr (NaryTreeSt α) :=
  match t.heap p with
  | none => .error (.typeError "A valid n-ary parent node must be specified to add a node to the n-ary tree.")
  | some d =>
    .ok { heap := (t.heap.set t.next ⟨v, []⟩).set p ⟨d.value, t.next :: d.children⟩,
          next := t.next + 1, root? := t.root?,
          size := t.size + 1, modCount := t.modCount + 1 }

/-- `addAsLastChild(childObj, parent)` (lines 92-104): `push` onto `parent.children`. -/
def addAsLastChild (v : α) (p : NodeId) (t : NaryTreeSt α) : Except JSErr (NaryTreeSt α) :=
  match t.heap p with
  | none => .error (.typeError "A valid n-ary parent node must be specified to add a node to the n-ary tree.")
  | some d =>
    .ok { heap := (t.heap.set t.next ⟨v, []⟩).set p ⟨d.value, d.children ++ [t.next]⟩,
          next := t.next + 1, root? := t.root?,
          size := t.size + 1, modCount := t.modCount + 1 }

/-- `addAtPosition(childObj, parent, position)` (lines 109-124): `splice` the
new node in at `position`; positions outside `[0, children.length]` raise a
`RangeError`. -/
def addAtPosition (v : α) (p : NodeId) (pos : Int) (t : NaryTreeSt α) :
    Except JSErr (NaryTreeSt α) :=
  match t.heap p with
  | none => .error (.typeError "A valid n-ary parent node must be specified to add a node to the n-ary tree.")
  | some d =>
    if pos < 0 ∨ pos > (d.children.length : Int) then
      .error (.rangeError "Position out of range. A tree node can not be added at the specified position.")
    else
      .ok { heap := (t.heap.set t.next ⟨v, []⟩).set p
              ⟨d.value, d.children.take pos.toNat ++ t.next :: d.children.drop pos.toNat⟩,
            next := t.next + 1, root? := t.root?,
            size := t.size + 1, modCount := t.modCount + 1 }

/-- `clear()` (lines 129-134): drop the root reference and reset the count.
Node objects themselves stay on the heap (still reachable from outside refs). -/
def clear (t : NaryTreeSt α) : NaryTreeSt α :=
  { heap := t.heap, next := t.next, root? := none, size := 0, modCount := t.modCount + 1 }

end NaryTreeSt

/-- In-progress state of the level-order generator (lines 292-315).  The
generator suspends immediately after `yield yieldNode`; the children of the
yielded node are pushed onto the queue only when the generator is resumed for
the next pull.  `pending` records the yielded node whose children have not
been enqueued yet.  The `numNodes` per-level counter of the source only
groups the queue into levels and does not change the pull sequence. -/
structure LevelIterSt where
  queue : List NodeId
  pending : Option NodeId
deriving DecidableEq, Repr

/-- `levelOrderIterator(node)`: with an absent start node the generator
returns at once (empty sequence); otherwise the queue starts as `[node]`. -/
def levelIterStart (n? : Option NodeId) : LevelIterSt :=
  match n? with
  | none => ⟨[], none⟩
  | some n => ⟨[n], none⟩

/-- One pull of the level-order generator: resume (enqueue the pending node's
children, read from the current heap), then shift and yield the queue head.
The generator body contains no `throw`, so a pull never produces an error;
the `Except` result type records that fact against the specification's
required `ReferenceError`. -/
def levelIterNext {α : Type} (h : Heap α) (s : LevelIterSt) :
    Except JSErr (Option (NodeId × LevelIterSt)) :=
  let q : List NodeId :=
    match s.pending with
    | none => s.queue
    | some p => s.queue ++ NaryTreeSt.childrenOf h p
  match q with
  | [] => .ok none
  | n :: rest => .ok (some (n, ⟨rest, some n⟩))

/-- Drive the level-order generator to exhaustion against a fixed heap,
collecting the yielded node references.  This is how every read-only
`for (let node of treeIterator)` loop of the source consumes the iterator. -/
def levelSeq {α : Type} (h : Heap α) : Nat → LevelIterSt → Except JSErr (List NodeId)
  | 0, _ => .error .outOfFuel
  | fuel + 1, s =>
    match levelIterNext h s with
    | .error e => .error e
    | .ok none => .ok []
    | .ok (some (n, s')) =>
      match levelSeq h fuel s' with
      | .error e => .error e
      | .ok l => .ok (n :: l)

namespace NaryTreeSt

variable {α : Type}

/-- The level-order node sequence of the tree starting from `n?`
(fuel `size + 1` suffices for every well-formed tree). -/
def levelList (t : NaryTreeSt α) (n? : Option NodeId) : Except JSErr (List NodeId) :=
  levelSeq t.heap (t.size + 1) (levelIterStart n?)

/-- Values along a node-id list. Dangling ids (never produced) contribute nothing. -/
def valuesOf (h : Heap α) (l : List NodeId) : List α :=
  l.filterMap (fun n => (h n).map NodeData.value)

/-- Does the stored value at node `n` equal `v` (`node.value === obj`)?
A dangling id never matches (no such object is ever compared in the source). -/
def valueAtIs (h : Heap α) [DecidableEq α] (n : NodeId) (v : α) : Bool :=
  ((h n).map NodeData.value) = some v

/-- First level-order match by value, as produced by the source's
`for (let node of treeIterator) { if (node.value===obj) return ... }` loops. -/
def findFirst (h : Heap α) [DecidableEq α] (l : List NodeId) (v : α) : Option NodeId :=
  l.find? (fun n => valueAtIs h n v)

/-- Last level-order match by value, as produced by the source's search loops
that assign `removeNode=node` without breaking (the final assignment wins). -/
def findLast (h : Heap α) [DecidableEq α] (l : List NodeId) (v : α) : Option NodeId :=
  l.reverse.find? (fun n => valueAtIs h n v)

/-- `contains(obj, parentNode)` (lines 141-165): `undefined`/`null` search
values (`obj? = none`) raise a `TypeError`; otherwise a level-order search from
`parentNode` (or the root) looks for a match.  The source also accepts a node
as `obj` (`node===obj`); for a plain stored value that comparison is always
false, so it is dropped here. -/
def contains [DecidableEq α] (t : NaryTreeSt α) (obj? : Option α) (parent? : Option NodeId) :
    Except JSErr Bool :=
  match obj? with
  | none => .error (.typeError "A valid child object must be specified when searching the n-ary tree for an object.")
  | some v =>
    let start := match parent? with
                 | some p => some p
                 | none => t.root?
    match levelSeq t.heap (t.size + 1) (levelIterStart start) with
    | .error e => .error e
    | .ok l => .ok (l.any (fun n => valueAtIs t.heap n v))

/-- `get(obj)` (lines 176-190): with an absent argument the source returns
`this._root.value` (a `TypeError` on an empty tree); otherwise the first
level-order match's value, or `null` (`none`) when no match exists. -/
def get [DecidableEq α] (t : NaryTreeSt α) (obj? : Option α) : Except JSErr (Option α) :=
  match obj? with
  | none =>
    match t.root? with
    | none => .error (.typeError "cannot read value of an undefined root")
    | some r =>
      match t.heap r with
      | none => .error (.typeError "dangling root reference")
      | some d => .ok (some d.value)
  | some v =>
    match levelSeq t.heap (t.size + 1) (levelIterStart t.root?) with
    | .error e => .error e
    | .ok l =>
      .ok ((findFirst t.heap l v).bind (fun n => (t.heap n).map NodeData.value))

/-- `getNode(obj)` (lines 194-208): with an absent argument the source returns
`this._root` itself; otherwise the first level-order matching node, or `null`. -/
def getNode [DecidableEq α] (t : NaryTreeSt α) (obj? : Option α) :
    Except JSErr (Option NodeId) :=
  match obj? with
  | none => .ok t.root?
  | some v =>
    match levelSeq t.heap (t.size + 1) (levelIterStart t.root?) with
    | .error e => .error e
    | .ok l => .ok (findFirst t.heap l v)

end NaryTreeSt

/-- Stored values for the `...ByObjectProperty` searches: a JavaScript object
as an ordered association of string keys to primitive values. -/
abbrev JObj := List (String × Int)

/-- `node.value[key] !== undefined && node.value[key] === value`. -/
def propMatches (o : JObj) (k : String) (v : Int) : Bool :=
  o.lookup k = some v

namespace NaryTreeSt

/-- `getByObjectProperty(obj)` (lines 213-229): with an absent argument the
source returns `this._root.value`; otherwise the query object's first entry
`[key, value]` (modelled directly as the pair) selects the first level-order
node whose value has that property set to that value. -/
def getByObjectProperty (t : NaryTreeSt JObj) (obj? : Option (String × Int)) :
    Except JSErr (Option JObj) :=
  match obj? with
  | none =>
    match t.root? with
    | none => .error (.typeError "cannot read value of an undefined root")
    | some r =>
      match t.heap r with
      | none => .error (.typeError "dangling root reference")
      | some d => .ok (some d.value)
  | some (k, v) =>
    match levelSeq t.heap (t.size + 1) (levelIterStart t.root?) with
    | .error e => .error e
    | .ok l =>
      .ok ((l.find? (fun n => ((t.heap n).map (fun d => propMatches d.value k v)).getD false)).bind
            (fun n => (t.heap n).map NodeData.value))

/-- `getNodeByObjectProperty(obj)` (lines 233-249): like `getByObjectProperty`
but returning the node reference (`this._root` for an absent argument). -/
def getNodeByObjectProperty (t : NaryTreeSt JObj) (obj? : Option (String × Int)) :
    Except JSErr (Option NodeId) :=
  match obj? with
  | none => .ok t.root?
  | some (k, v) =>
    match levelSeq t.heap (t.size + 1) (levelIterStart t.root?) with
    | .error e => .error e
    | .ok l =>
      .ok (l.find? (fun n => ((t.heap n).map (fun d => propMatches d.value k v)).getD false))

variable {α : Type}

/-- Recursive helper of `height(naryNode)` (lines 267-275): a childless node
has height 1, otherwise `1 + reduce(max, -1)` over the children, which equals
one plus the maximum child height since every recursive height is nonnegative.
Fuel bounds the recursion depth (exhaustion cannot occur on well-formed trees). -/
def heightAt (h : Heap α) : Nat → NodeId → Nat
  | 0, _ => 0
  | fuel + 1, n =>
    match h n with
    | none => 0
    | some d =>
      match d.children with
      | [] => 1
      | _ => 1 + d.children.foldl (fun acc c => max acc (heightAt h fuel c)) 0

/-- `height(naryNode)` (lines 260-276): 0 on an empty tree (`_size === 0`);
with no argument the height is measured from the root. -/
def height (t : NaryTreeSt α) (n? : Option NodeId) : Nat :=
  if t.size = 0 then 0
  else
    match n? with
    | none =>
      match t.root? with
      | none => 0
      | some r => heightAt t.heap (t.size + 1) r
    | some n => heightAt t.heap (t.size + 1) n

/-- `size(naryNode)` (lines 615-647): with no argument, the stored `_size`
counter; with a node, a whole-tree search for that node reference
(`ReferenceError` when absent), then the length of the level-order sequence of
its subtree (or `_size` itself when the node is the root). -/
def sizeM (t : NaryTreeSt α) (n? : Option NodeId) : Except JSErr Nat :=
  match n? with
  | none => .ok t.size
  | some n =>
    match levelSeq t.heap (t.size + 1) (levelIterStart t.root?) with
    | .error e => .error e
    | .ok l =>
      if n ∈ l then
        if t.root? = some n then .ok t.size
        else
          match levelSeq t.heap (t.size + 1) (levelIterStart (some n)) with
          | .error e => .error e
          | .ok sub => .ok sub.length
      else .error (.referenceError "The specified nary-node was not found in this n-ary tree.")

/-- The no-argument `remove()` path (lines 341-362): a childless root clears
the tree; otherwise the root's first child is promoted (`shift` mutates the old
root's children first), the size decreases by one, and the remaining former
root children are concatenated onto the promoted node's children. -/
def removeRootPromote (t : NaryTreeSt α) : Except JSErr (NaryTreeSt α) :=
  match t.root? with
  | none => .error (.typeError "cannot read children of an undefined root")
  | some r =>
    match t.heap r with
    | none => .error (.typeError "dangling root reference")
    | some d =>
      match d.children with
      | [] => .ok t.clear
      | c :: rest =>
        let h1 := t.heap.set r ⟨d.value, rest⟩
        match h1 c with
        | none => .error (.typeError "dangling child reference")
        | some cd =>
          .ok { heap := h1.set c ⟨cd.value, cd.children ++ rest⟩,
                next := t.next, root? := some c,
                size := t.size - 1, modCount := t.modCount + 1 }

/-- The splice loop shared by `remove`, `removeNode`, `removeSubtree` and
`removeNodeSubtree`: a level-order walk from the root; at every visited node
whose children array contains the target, the target is spliced out (and, in
bubble mode, the target's children — read from the current heap — are
concatenated in its place), decrementing `_size` and bumping `_modCount` per
splice.  The walk reads each node's children only at the next pull, after the
loop body possibly mutated them, exactly as the suspended generator does. -/
def spliceLoop (bubble : Bool) (target : NodeId) :
    Nat → LevelIterSt → NaryTreeSt α → Except JSErr (NaryTreeSt α)
  | 0, _, _ => .error .outOfFuel
  | fuel + 1, s, t =>
    match levelIterNext t.heap s with
    | .error e => .error e
    | .ok none => .ok t
    | .ok (some (n, s')) =>
      match t.heap n with
      | none => spliceLoop bubble target fuel s' t
      | some d =>
        if target ∈ d.children then
          let spliced := d.children.eraseIdx (d.children.indexOf target)
          let newChildren := if bubble then spliced ++ childrenOf t.heap target else spliced
          spliceLoop bubble target fuel s'
            { heap := t.heap.set n ⟨d.value, newChildren⟩,
              next := t.next, root? := t.root?,
              size := t.size - 1, modCount := t.modCount + 1 }
        else
          spliceLoop bubble target fuel s' t

/-- `remove(obj, parent)` (lines 337-423).  No argument: root promotion.  With
an argument: locate the target (last match under a given parent's subtree,
first match via `getNode` otherwise); a miss raises `ReferenceError` on the
`getNode` path but a `TypeError` on the parent path (the placeholder `{}` left
in `removeNode` has no `children`); the root delegates to the no-argument
path; otherwise the splice loop runs, bubbling the children up when the target
has any. -/
def remove [DecidableEq α] (obj? : Option α) (parent? : Option NodeId) (t : NaryTreeSt α) :
    Except JSErr (NaryTreeSt α) :=
  match obj? with
  | none => removeRootPromote t
  | some v =>
    let target? : Except JSErr (Option NodeId) :=
      match parent? with
      | some p =>
        match levelSeq t.heap (t.size + 1) (levelIterStart (some p)) with
        | .error e => .error e
        | .ok l => .ok (findLast t.heap l v)
      | none => getNode t (some v)
    match target? with
    | .error e => .error e
    | .ok none =>
      match parent? with
      | none => .error (.referenceError "The specified object reference is not present in this n-ary tree.")
      | some _ => .error (.typeError "cannot read children of the placeholder object")
    | .ok (some x) =>
      if t.root? = some x then removeRootPromote t
      else if (childrenOf t.heap x).isEmpty then
        spliceLoop false x (t.size + 1) (levelIterStart t.root?) t
      else
        spliceLoop true x (t.size + 1) (levelIterStart t.root?) t

/-- `removeSubtree(obj, parentNode)` (lines 506-558): an absent search value
raises `TypeError`; the last level-order match from `parentNode` (or the root)
is selected; no match raises `ReferenceError`; a root match clears the tree;
otherwise the splice loop detaches the matched node (subtree and all) while
decrementing `_size` once per splice. -/
def removeSubtree [DecidableEq α] (obj? : Option α) (parent? : Option NodeId)
    (t : NaryTreeSt α) : Except JSErr (NaryTreeSt α) :=
  match obj? with
  | none => .error (.typeError "A valid object must be specified when removing a sub-tree by object.")
  | some v =>
    let start := match parent? with
                 | some p => some p
                 | none => t.root?
    match levelSeq t.heap (t.size + 1) (levelIterStart start) with
    | .error e => .error e
    | .ok l =>
      match findLast t.heap l v with
      | none => .error (.referenceError "The specified object was not found in this n-ary tree.")
      | some x =>
        if t.root? = some x then .ok t.clear
        else spliceLoop false x (t.size + 1) (levelIterStart t.root?) t

/-- `removeNodeSubtree(naryNode)` (lines 562-610): the level-order search from
`naryNode` (or the root when absent) looks for the node reference itself; an
absent argument therefore never matches and raises `ReferenceError`; a root
match clears the tree; otherwise the same subtree splice loop runs. -/
def removeNodeSubtree (n? : Option NodeId) (t : NaryTreeSt α) :
    Except JSErr (NaryTreeSt α) :=
  let start := match n? with
               | some n => some n
               | none => t.root?
  match levelSeq t.heap (t.size + 1) (levelIterStart start) with
  | .error e => .error e
  | .ok l =>
    match n? with
    | none => .error (.referenceError "The specified object was not found in this n-ary tree.")
    | some n =>
      if n ∈ l then
        if t.root? = some n then .ok t.clear
        else spliceLoop false n (t.size + 1) (levelIterStart t.root?) t
      else .error (.referenceError "The specified object was not found in this n-ary tree.")

end NaryTreeSt

/-- In-progress state of the pre-order generator (lines 319-331), obtained by
defunctionalizing the recursive `yield*` descent: each stack frame holds the
children still to traverse in an enclosing `for...of`, innermost first, and
`pending` is the node just yielded whose `for...of` over its children has not
started yet (it starts on the next pull, reading the current heap). -/
structure PreIterSt where
  stack : List (List NodeId)
  pending : Option NodeId
deriving DecidableEq, Repr

/-- `preOrderIterator(node)`: an absent start node yields nothing. -/
def preIterStart (n? : Option NodeId) : PreIterSt :=
  match n? with
  | none => ⟨[], none⟩
  | some n => ⟨[[n]], none⟩

/-- Pop the next node to yield, discarding exhausted frames. -/
def preIterPop : List (List NodeId) → Option (NodeId × List (List NodeId))
  | [] => none
  | [] :: outer => preIterPop outer
  | (c :: cs) :: outer => some (c, cs :: outer)

/-- One pull of the pre-order generator: enter the pending node's children
(read from the current heap), then yield the innermost next child.  Like the
level-order generator it contains no `throw`, so a pull never errors. -/
def preIterNext {α : Type} (h : Heap α) (s : PreIterSt) :
    Except JSErr (Option (NodeId × PreIterSt)) :=
  let st : List (List NodeId) :=
    match s.pending with
    | none => s.stack
    | some p => NaryTreeSt.childrenOf h p :: s.stack
  match preIterPop st with
  | none => .ok none
  | some (n, st') => .ok (some (n, ⟨st', some n⟩))

/-- One call in a client-driven sequence of tree mutations (the operations
named by the specification's size invariant). Parent arguments are node
references the client obtained earlier. -/
inductive TreeOp (α : Type) where
  | add (v : α)
  | addFirst (v : α) (p : NodeId)
  | addLast (v : α) (p : NodeId)
  | addAtPos (v : α) (p : NodeId) (pos : Int)
  | removeNoArg
  | removeVal (v : α)
  | removeValIn (v : α) (p : NodeId)
deriving Repr

/-- Execute one call. -/
def stepOp {α : Type} [DecidableEq α] (t : NaryTreeSt α) :
    TreeOp α → Except JSErr (NaryTreeSt α)
  | .add v => t.add v
  | .addFirst v p => t.addAsFirstChild v p
  | .addLast v p => t.addAsLastChild v p
  | .addAtPos v p pos => t.addAtPosition v p pos
  | .removeNoArg => NaryTreeSt.remove none none t
  | .removeVal v => NaryTreeSt.remove (some v) none t
  | .removeValIn v p => NaryTreeSt.remove (some v) (some p) t

/-- Execute a call sequence; the first raised error aborts the sequence. -/
def runOps {α : Type} [DecidableEq α] (t : NaryTreeSt α) :
    List (TreeOp α) → Except JSErr (NaryTreeSt α)
  | [] => .ok t
  | op :: rest =>
    match stepOp t op with
    | .error e => .error e
    | .ok t' => runOps t' rest

/-- Does the call pass only parent references that denote nodes currently in
the tree (reachable from the root)?  Calls without a parent argument qualify
trivially. -/
def parentOkB {α : Type} (t : NaryTreeSt α) : TreeOp α → Bool
  | .addFirst _ p | .addLast _ p | .addAtPos _ p _ | .removeValIn _ p =>
    match t.levelList t.root? with
    | .ok l => p ∈ l
    | .error _ => false
  | _ => true

/-- Every call of the sequence, at the state where it executes, passes only
in-tree parent references. -/
def okTrace {α : Type} [DecidableEq α] (t : NaryTreeSt α) : List (TreeOp α) → Bool
  | [] => true
  | op :: rest =>
    parentOkB t op &&
      (match stepOp t op with
       | .ok t' => okTrace t' rest
       | .error _ => true)

/-- The shape of the part of the heap reachable from one node: the node's id
and the shapes of its children, in order. -/
inductive Shape where
  | node : NodeId → List Shape → Shape
deriving Repr

/-- Root id of a shape. -/
def Shape.top : Shape → NodeId
  | .node i _ => i

mutual

/-- All ids of a shape, preorder. -/
def Shape.ids : Shape → List NodeId
  | .node i kids => i :: Shape.idsF kids

/-- All ids of a forest of shapes. -/
def Shape.idsF : List Shape → List NodeId
  | [] => []
  | s :: ss => Shape.ids s ++ Shape.idsF ss

end

mutual

/-- Does the heap realize this shape: every shape node is allocated and its
children array lists exactly the tops of its child shapes, recursively. -/
def decodeB {α : Type} (h : Heap α) : Shape → Bool
  | .node i kids =>
    match h i with
    | none => false
    | some d => decide (d.children = kids.map Shape.top) && decodeF h kids

/-- `decodeB` over a forest. -/
def decodeF {α : Type} (h : Heap α) : List Shape → Bool
  | [] => true
  | s :: ss => decodeB h s && decodeF h ss

end

mutual

/-- Longest root-to-leaf path of a shape, counted in nodes (a leaf counts 1).
This follows the specification's wording for `height`. -/
def Shape.heightS : Shape → Nat
  | .node _ [] => 1
  | .node _ (k :: ks) => 1 + Shape.heightFMax (k :: ks)

/-- Maximum `heightS` over a forest (0 when empty). -/
def Shape.heightFMax : List Shape → Nat
  | [] => 0
  | s :: ss => max s.heightS (Shape.heightFMax ss)

end

mutual

/-- Longest root-to-leaf path of a shape, counted in EDGES, transcribed from
the specification sentence for `height` ("longest root-to-leaf edge count"):
a single leaf has edge count 0. Stated for comparison with the code's
node-counting `height`. -/
def Shape.edgeHeight : Shape → Nat
  | .node _ [] => 0
  | .node _ (k :: ks) => 1 + Shape.edgeHeightF (k :: ks)

/-- Maximum `edgeHeight` over a forest (0 when empty). -/
def Shape.edgeHeightF : List Shape → Nat
  | [] => 0
  | s :: ss => max s.edgeHeight (Shape.edgeHeightF ss)

end

/-- The tree state is well-formed with shape `sh`: the root points at the
shape's top, the heap realizes the shape, ids are distinct (each node has one
parent, no cycles), all ids are allocated below the allocation counter, and
the stored `_size` counts the shape's nodes. -/
def IsShapeOf {α : Type} (t : NaryTreeSt α) (sh : Shape) : Prop :=
  t.root? = some sh.top ∧ decodeB t.heap sh = true ∧ sh.ids.Nodup ∧
    (∀ i ∈ sh.ids, i < t.next) ∧ t.size = sh.ids.length

/-- Well-formedness of a tree state: an absent root means size 0, a present
root is realized by some shape. -/
def Inv {α : Type} (t : NaryTreeSt α) : Prop :=
  match t.root? with
  | none => t.size = 0
  | some _ => ∃ sh, IsShapeOf t sh

mutual

/-- Replace the child list of the node `p` (at every occurrence; shapes with
distinct ids have at most one). -/
def Shape.setKids (p : NodeId) (newKs : List Shape) : Shape → Shape
  | .node i kids =>
    if i = p then .node i newKs else .node i (Shape.setKidsF p newKs kids)

/-- `Shape.setKids` over a forest. -/
def Shape.setKidsF (p : NodeId) (newKs : List Shape) : List Shape → List Shape
  | [] => []
  | s :: ss => Shape.setKids p newKs s :: Shape.setKidsF p newKs ss

end

mutual

/-- The child shapes of node `p` within a shape (first occurrence). -/
def Shape.kidsAt? (p : NodeId) : Shape → Option (List Shape)
  | .node i kids => if i = p then some kids else Shape.kidsAtF? p kids

/-- `Shape.kidsAt?` over a forest. -/
def Shape.kidsAtF? (p : NodeId) : List Shape → Option (List Shape)
  | [] => none
  | s :: ss =>
    match Shape.kidsAt? p s with
    | some r => some r
    | none => Shape.kidsAtF? p ss

end

/-!  ## QuickReact (`src/utility/QuickReact.js`)  -/

/-- An attribute value of a `QuickReactElement`: the source stores either the
boolean `true` or a string. -/
inductive AttrVal where
  | b (v : Bool)
  | s (v : String)
deriving DecidableEq, Repr

/-- Template-literal coercion of an attribute value to a string. -/
def AttrVal.asString : AttrVal → String
  | .b v => if v then "true" else "false"
  | .s v => v

/-- `QuickReactElement` (QuickReact.js lines 15-192): name, type, subtype and
an insertion-ordered attribute map (a JavaScript `Map`). -/
structure QRElement where
  name : String
  type : String
  subtype : String
  attributes : List (String × AttrVal)
deriving DecidableEq, Repr

/-- `Map.set` semantics: an existing key keeps its position and gets the new
value, a new key is appended. -/
def mapSet (attrs : List (String × AttrVal)) (k : String) (v : AttrVal) :
    List (String × AttrVal) :=
  if attrs.any (fun p => p.1 = k) then
    attrs.map (fun p => if p.1 = k then (k, v) else p)
  else attrs ++ [(k, v)]

/-- `setAttribute({key: value})` (lines 169-172). -/
def QRElement.setAttribute (e : QRElement) (k : String) (v : AttrVal) : QRElement :=
  { e with attributes := mapSet e.attributes k v }

/-- `hasAttribute(key)` (lines 107-109). -/
def QRElement.hasAttribute (e : QRElement) (k : String) : Bool :=
  e.attributes.any (fun p => p.1 = k)

/-- `getAttribute(key)` (lines 149-151); `none` is JavaScript `undefined`. -/
def QRElement.getAttribute (e : QRElement) (k : String) : Option AttrVal :=
  e.attributes.lookup k

/-- `startsWith`, computed on the character lists. -/
def jsStartsWith (s pre : String) : Bool :=
  pre.data.isPrefixOf s.data

/-- `slice(n)`: drop the first `n` characters (the strings at hand are ASCII). -/
def jsDrop (s : String) (n : Nat) : String :=
  String.mk (s.data.drop n)

/-- The accumulate-into-a-comma-joined-string pattern used for `forminputs`
and `hooks`: append after a comma when the key exists, else set it fresh. -/
def QRElement.accumAttr (e : QRElement) (k v : String) : QRElement :=
  match e.getAttribute k with
  | some prev => e.setAttribute k (.s (prev.asString ++ "," ++ v))
  | none => e.setAttribute k (.s v)

/-- The attribute-vocabulary chain applied to each tag token after the first
(lines 351-506): a sequence of independent `if` statements, in source order
(the duplicated `forminput=` branch with `slice(5)` included). -/
def applyAttrToken (e0 : QRElement) (a : String) : QRElement :=
  let e := e0
  let e := if a = "bootstrap" then e.setAttribute "react-bootstrap" (.b true) else e
  let e := if a = "bootstrap=true" then e.setAttribute "react-bootstrap" (.b true) else e
  let e := if a = "reactbootstrap" then e.setAttribute "react-bootstrap" (.b true) else e
  let e := if a = "reactbootstrap=true" then e.setAttribute "react-bootstrap" (.b true) else e
  let e := if a = "react-bootstrap" then e.setAttribute "react-bootstrap" (.b true) else e
  let e := if a = "react-bootstrap=true" then e.setAttribute "react-bootstrap" (.b true) else e
  let e := if a = "fetch" then e.setAttribute "fetch" (.b true) else e
  let e := if a = "fetch=true" then e.setAttribute "fetch" (.b true) else e
  let e := if a = "fetch=GET" then e.setAttribute "fetch" (.s "GET") else e
  let e := if a = "fetch=POST" then e.setAttribute "fetch" (.s "POST") else e
  let e := if a = "fetch=PUT" then e.setAttribute "fetch" (.s "PUT") else e
  let e := if a = "fetch=DELETE" then e.setAttribute "fetch" (.s "DELETE") else e
  let e := if a = "fetch=PATCH" then e.setAttribute "fetch" (.s "PATCH") else e
  let e := if a = "fetch=get" then e.setAttribute "fetch" (.s "GET") else e
  let e := if a = "fetch=post" then e.setAttribute "fetch" (.s "POST") else e
  let e := if a = "fetch=put" then e.setAttribute "fetch" (.s "PUT") else e
  let e := if a = "fetch=delete" then e.setAttribute "fetch" (.s "DELETE") else e
  let e := if a = "fetch=patch" then e.setAttribute "fetch" (.s "PATCH") else e
  let e := if a = "link" then e.setAttribute "link" (.b true) else e
  let e := if a = "link=true" then e.setAttribute "link" (.b true) else e
  let e := if a = "switch" then e.setAttribute "switch" (.b true) else e
  let e := if a = "switch=true" then e.setAttribute "switch" (.b true) else e
  let e := if a = "route" then e.setAttribute "route" (.b true) else e
  let e := if a = "route=true" then e.setAttribute "route" (.b true) else e
  let e := if a = "router" then e.setAttribute "router" (.b true) else e
  let e := if a = "router=true" then e.setAttribute "router" (.b true) else e
  let e := if a = "map" then e.setAttribute "map" (.b true) else e
  let e := if a = "map=true" then e.setAttribute "map" (.b true) else e
  let e := if a = "form" then e.setAttribute "form" (.b true) else e
  let e := if a = "form=true" then e.setAttribute "form" (.b true) else e
  let e := if jsStartsWith a "forminput=" then e.accumAttr "forminputs" (jsDrop a 10) else e
  let e := if jsStartsWith a "forminputs=" then e.accumAttr "forminputs" (jsDrop a 11) else e
  let e := if jsStartsWith a "forminput=" then e.accumAttr "forminputs" (jsDrop a 5) else e
  let e := if jsStartsWith a "hooks=" then e.accumAttr "hooks" (jsDrop a 6) else e
  let e := if a = "useEffect" ∨ a = "useEffect=true" then e.accumAttr "hooks" "useEffect" else e
  let e := if a = "useState" ∨ a = "useState=true" then e.accumAttr "hooks" "useState" else e
  let e := if a = "useReducer" ∨ a = "useReducer=true" then e.accumAttr "hooks" "useReducer" else e
  let e := if a = "useContext" ∨ a = "useContext=true" then e.accumAttr "hooks" "useContext" else e
  let e := if a = "useLocation" ∨ a = "useLocation=true" then e.accumAttr "hooks" "useLocation" else e
  let e := if a = "useHistory" ∨ a = "useHistory=true" then e.accumAttr "hooks" "useHistory" else e
  let e := if a = "useParams" ∨ a = "useParams=true" then e.accumAttr "hooks" "useParams" else e
  let e := if jsStartsWith a "useEffect*" ∨ jsStartsWith a "useState*" ∨
              jsStartsWith a "useReducer*" ∨ jsStartsWith a "useContext*" then
             e.accumAttr "hooks" a
           else e
  e

/-- Build one element from a tag's token list (lines 327-510): the first token
is the name (the reserved `Config` marks the config element), the tag kind
gives the subtype, and the remaining tokens run through the attribute chain. -/
def lexElement (tokens : List String) (selfClosing close : Bool) : QRElement :=
  let st : String :=
    if selfClosing then "selfclosingtag" else if close then "closetag" else "opentag"
  match tokens with
  | [] => { name := "", type := "", subtype := "", attributes := [] }
  | t0 :: rest =>
    let e0 : QRElement :=
      if t0 = "Config" then { name := "Config", type := "config", subtype := st, attributes := [] }
      else { name := t0, type := "component", subtype := st, attributes := [] }
    rest.foldl applyAttrToken e0

/-- JavaScript `\s` for the inputs at hand (ASCII whitespace). -/
def isJsSpace (c : Char) : Bool :=
  c = ' ' ∨ c = '\t' ∨ c = '\n' ∨ c = '\r' ∨ c = '\x0c' ∨ c = '\x0b'

/-- `component.replace(/\s+,\s+|\s+,|,\s+/g, ',')` (line 310): whitespace
around a comma collapses into the bare comma; scanning is leftmost with the
alternatives in source order, so a whitespace run is replaced only when a
comma adjoins it. -/
def normalizeCommas : Nat → List Char → List Char
  | 0, cs => cs
  | fuel + 1, cs =>
    match cs with
    | [] => []
    | c :: rest =>
      if isJsSpace c then
        match rest.dropWhile isJsSpace with
        | ',' :: rest2 => ',' :: normalizeCommas fuel (rest2.dropWhile isJsSpace)
        | _ => c :: normalizeCommas fuel rest
      else if c = ',' ∧ ((rest.head?.map isJsSpace).getD false) then
        ',' :: normalizeCommas fuel (rest.dropWhile isJsSpace)
      else c :: normalizeCommas fuel rest

/-- `component.replace(/\'|\"/g, '')` (line 314): strip quotes. -/
def stripQuotes (cs : List Char) : List Char :=
  cs.filter (fun c => ¬ (c = '\'' ∨ c = '"'))

/-- `component.replace(/\s+/g, ' ')` (line 318): collapse whitespace runs. -/
def collapseSpaces : Nat → List Char → List Char
  | 0, cs => cs
  | fuel + 1, cs =>
    match cs with
    | [] => []
    | c :: rest =>
      if isJsSpace c then ' ' :: collapseSpaces fuel (rest.dropWhile isJsSpace)
      else c :: collapseSpaces fuel rest

/-- `component.trim()` (line 322). -/
def jsTrim (cs : List Char) : List Char :=
  ((cs.dropWhile isJsSpace).reverse.dropWhile isJsSpace).reverse

/-- `indexOf(char, from)`: absolute position of the first occurrence at or
after `start`, `none` for JavaScript's `-1`. -/
def idxOfFrom (cs : List Char) (c : Char) (start : Nat) : Option Nat :=
  match (cs.drop start).findIdx? (fun x => x = c) with
  | none => none
  | some k => some (start + k)

/-- `charAt(i)` compared against a one-character string: out-of-range yields
the empty string, which never equals a one-character string. -/
def charAt? (cs : List Char) (i : Nat) : Option Char :=
  cs.get? i

/-- `_printRef(code, index, length)` (lines 620-622). -/
def printRef (code : List Char) (index length : Nat) : String :=
  "Reference: " ++ String.mk ((code.drop index).take length)

/-- The lexing loop of `parseMarkup` (lines 259-521).  One iteration: locate
the next `<` and `>` from the scan cursor (unmatched brackets raise
`SyntaxError`), skip empty fragments `<>` and `</>`, classify the tag
(close if the character after `<` is `/`; self-closing if the character
before `>` is `/`, excluding it from the body), normalize and tokenize the
body, build the element, then advance the cursor to `endIndex + 1`
(`endIndex + 2` when self-closing) — after which the loop's unconditional
`codeIndex++` moves it one further character ahead. -/
def lexLoop (code : List Char) (endPos : Nat) :
    Nat → Nat → List QRElement → Except JSErr (List QRElement)
  | 0, _, _ => .error .outOfFuel
  | fuel + 1, ci, acc =>
    if ci < endPos then
      match idxOfFrom code '<' ci, idxOfFrom code '>' ci with
      | none, none => .ok acc
      | none, some _ =>
        .error (.syntaxError ("The markup code is missing an opening '<' character.  " ++
          printRef code ci 80))
      | some s, none =>
        .error (.syntaxError ("The markup code is missing a closing '>' character. " ++
          printRef code s 80 ++ " "))
      | some s, some e =>
        if charAt? code (s + 1) = some '>' then
          lexLoop code endPos fuel (ci + 2) acc
        else if charAt? code (s + 1) = some '/' ∧ charAt? code (s + 2) = some '>' then
          lexLoop code endPos fuel (ci + 3) acc
        else
          let close := charAt? code (s + 1) = some '/'
          let selfClosing := charAt? code (e - 1) = some '/'
          let e' := if selfClosing then e - 1 else e
          let body := (code.drop (s + 1)).take (e' - (s + 1))
          let normalized :=
            jsTrim (collapseSpaces (body.length + 1)
              (stripQuotes (normalizeCommas (body.length + 1) body)))
          let tokens := (normalized.splitOn ' ').map (fun l => String.mk l)
          let elem := lexElement tokens selfClosing close
          let ci' := if selfClosing then e' + 2 else e' + 1
          lexLoop code endPos fuel (ci' + 1) (acc ++ [elem])
    else .ok acc

/-- Lex a whole markup string into its ordered element list. -/
def lexMarkup (code : String) : Except JSErr (List QRElement) :=
  lexLoop code.data code.length (code.length + 1) 0 []

/-- The result of `parseMarkup`: the populated tree whose stored values are
indices into `elems`, the table of `QuickReactElement` objects (the lexed
elements in order, followed by the synthesized `Config` element when one was
created).  Distinct indices model distinct JavaScript objects, so index
equality is exactly the source's `===` on elements. -/
structure ParseResult where
  tree : NaryTreeSt Nat
  elems : List QRElement

/-- The missing-closing-tag diagnostic (line 573). -/
def missingCloserMsg (nm : String) : String :=
  "All components in the Quick-React markup, which are not self-closing, must include a matching closing tag.  Please include a closing tag: </" ++
    nm ++ "> for the " ++ nm ++ " component."

/-- The overlapping-tags diagnostic (line 603). -/
def overlapMsg (pname ename : String) : String :=
  "Opening and closing tags for different components can not overlap.  Please check the placement of the following tags: <" ++
    pname ++ "> <" ++ ename ++ ">."

/-- The missing-App diagnostic (line 551). -/
def missingAppMsg : String :=
  "The markup code must include an opening <App> component tag and closing </App> tag."

/-- Phase 1 of the tree build (lines 525-539): add every config element (by
index) to the tree and push it on the ancestor stack.  The stack holds element
references; `none` models `undefined`. -/
def configPass (t : NaryTreeSt Nat) (stack : List (Option Nat)) :
    List (Nat × QRElement) → Except JSErr (NaryTreeSt Nat × List (Option Nat) × Bool)
  | [] => .ok (t, stack, false)
  | (i, e) :: rest =>
    if e.type = "config" then
      match t.add i with
      | .error err => .error err
      | .ok t' =>
        match configPass t' (some i :: stack) rest with
        | .error err => .error err
        | .ok (t'', st, _) => .ok (t'', st, true)
    else configPass t stack rest

/-- Phase 2 of the tree build (lines 542-552): every `App` open tag is added
as the root's first child and pushed; a missing one raises the `SyntaxError`. -/
def appPass (t : NaryTreeSt Nat) (stack : List (Option Nat)) :
    List (Nat × QRElement) → Except JSErr (NaryTreeSt Nat × List (Option Nat) × Bool)
  | [] => .ok (t, stack, false)
  | (i, e) :: rest =>
    if e.name = "App" ∧ e.subtype = "opentag" then
      match t.root? with
      | none => .error (.typeError "A valid n-ary parent node must be specified to add a node to the n-ary tree.")
      | some r =>
        match t.addAsFirstChild i r with
        | .error err => .error err
        | .ok t' =>
          match appPass t' (some i :: stack) rest with
          | .error err => .error err
          | .ok (t'', st, _) => .ok (t'', st, true)
    else appPass t stack rest

/-- Does some element close the named open tag (inner loop of lines 565-571)? -/
def hasCloser (all : List QRElement) (nm : String) : Bool :=
  all.any (fun e2 => e2.name = "/" ++ nm ∧ e2.type = "component" ∧ e2.subtype = "closetag")

/-- Phase 3 of the tree build (lines 560-576): every component open tag must
have a matching close tag somewhere in the list; the first one without raises
the missing-closing-tag `SyntaxError`. -/
def validateClosers (all : List QRElement) : List QRElement → Except JSErr Unit
  | [] => .ok ()
  | e :: rest =>
    if e.type = "component" ∧ e.subtype = "opentag" ∧ ¬ hasCloser all e.name then
      .error (.syntaxError (missingCloserMsg e.name))
    else validateClosers all rest

/-- Phase 4 of the tree build (lines 581-606): walk the elements keeping a
stack of open ancestors.  An open tag looks up its stack-top ancestor's node
(`getNode`; an `undefined` stack entry resolves to the root, a `null` lookup
result crashes with `TypeError`), appends itself as that node's last child
unless the node already holds it, and pushes itself.  A self-closing tag
appends without pushing.  A close tag pops and must match the popped name
(`/name`), else the overlap `SyntaxError` is raised; popping `undefined`
crashes with `TypeError` at `.name`. -/
def fillPass (table : List QRElement) :
    List (Nat × QRElement) → List (Option Nat) → NaryTreeSt Nat →
      Except JSErr (NaryTreeSt Nat)
  | [], _, t => .ok t
  | (i, e) :: rest, stack, t =>
    if e.type = "component" ∧ e.subtype = "opentag" then
      let parentEl : Option Nat := (stack.head?).getD none
      let stack₁ := stack.tail
      match NaryTreeSt.getNode t parentEl with
      | .error err => .error err
      | .ok none => .error (.typeError "cannot read value of a null parent node")
      | .ok (some pn) =>
        let stack₂ := some i :: parentEl :: stack₁
        if NaryTreeSt.valueAtIs t.heap pn i then fillPass table rest stack₂ t
        else
          match t.addAsLastChild i pn with
          | .error err => .error err
          | .ok t' => fillPass table rest stack₂ t'
    else if e.type = "component" ∧ e.subtype = "selfclosingtag" then
      let parentEl : Option Nat := (stack.head?).getD none
      let stack₁ := stack.tail
      match NaryTreeSt.getNode t parentEl with
      | .error err => .error err
      | .ok none => .error (.typeError "cannot read value of a null parent node")
      | .ok (some pn) =>
        match t.addAsLastChild i pn with
        | .error err => .error err
        | .ok t' => fillPass table rest (parentEl :: stack₁) t'
    else if e.type = "component" ∧ e.subtype = "closetag" then
      match stack with
      | [] => .error (.typeError "cannot read name of an undefined stack entry")
      | pe :: stack₁ =>
        match pe with
        | none => .error (.typeError "cannot read name of an undefined stack entry")
        | some pi =>
          match table.get? pi with
          | none => .error (.typeError "dangling element index")
          | some pelem =>
            if "/" ++ pelem.name ≠ e.name then
              .error (.syntaxError (overlapMsg pelem.name e.name))
            else fillPass table rest stack₁ t
    else fillPass table rest stack t

/-- Phases 2-4 of the tree build, run after the config root is in place. -/
def buildAfterConfig (elems table : List QRElement) (stack2 : List (Option Nat))
    (t2 : NaryTreeSt Nat) : Except JSErr ParseResult :=
  match appPass t2 stack2 elems.enum with
  | .error err => .error err
  | .ok (t3, stack3, hasApp) =>
    if ¬ hasApp then .error (.syntaxError missingAppMsg)
    else
      match validateClosers elems elems with
      | .error err => .error err
      | .ok _ =>
        match fillPass table elems.enum stack3 t3 with
        | .error err => .error err
        | .ok t4 => .ok ⟨t4, table⟩

/-- The tree-building half of `parseMarkup` (lines 523-608), run on the lexed
element list against the instance's current tree.  Elements are addressed by
index; the synthesized `Config` element (the `!hasConfig` branch, lines
533-539) receives the next fresh index.  That branch pushes
`quickreactElementArray[i]` where `i` is the function-level variable still at
0, i.e. the first lexed element (or `undefined` when there is none). -/
def buildTree (elems : List QRElement) (t0 : NaryTreeSt Nat) :
    Except JSErr ParseResult :=
  match configPass t0 [] elems.enum with
  | .error err => .error err
  | .ok (t1, stack1, hasConfig) =>
    if hasConfig then buildAfterConfig elems elems stack1 t1
    else
      let synth : QRElement := { name := "Config", type := "config", subtype := "", attributes := [] }
      match t1.add elems.length with
      | .error err => .error err
      | .ok t2 =>
        buildAfterConfig elems (elems ++ [synth])
          ((if elems.isEmpty then none else some 0) :: stack1) t2

/-- The argument of `parseMarkup` as a JavaScript value: `undefined`, `null`,
a non-string object, or a string. -/
inductive JSArg where
  | undef
  | null
  | nonString
  | str (s : String)
deriving DecidableEq, Repr

/-- `parseMarkup(code)` (lines 224-609): a non-string argument returns the
instance's tree unchanged; otherwise the markup is lexed and the element list
is assembled into the tree. -/
def parseMarkup (t : NaryTreeSt Nat) (arg : JSArg) : Except JSErr ParseResult :=
  match arg with
  | .str code =>
    match lexMarkup code with
    | .error err => .error err
    | .ok elems => buildTree elems t
  | _ => .ok ⟨t, []⟩

/-!  ### `_findMultiplier` (lines 657-725) and its regular expression

The source builds
`` `${s}\*\d{2}|${s}\*\d{1}|${s}\[.+?\]|^${s}$|${s}[\s\t,;]|[\s\t,;]${s}[\s\t,;]|[\s\t,;]${s}$` ``
inside a template literal, where `\\*`, `\\d`, `\\[`, `\\]` reach the regex
engine as `\*`, `\d`, `\[`, `\]`, but `[\s\t,;]` does not: in the literal,
`\s` is the identity escape for `s` and `\t` is a tab character, so the
character class the engine sees is `[st,;<TAB>]`.  The matcher below
implements exactly this seven-alternative pattern with the JavaScript
semantics: leftmost match position, alternatives tried in order, `.` not
matching a newline, `+?` lazy, `^`/`$` anchoring the whole string, and the
`g` flag collecting successive non-overlapping matches. -/

/-- The literal character class `[st,;<TAB>]` produced by the unescaped
`[\s\t,;]` in the source's template literal. -/
def classChars : List Char := ['s', 't', ',', ';', '\t']

/-- Match a literal prefix, returning the remainder. -/
def dropLit : List Char → List Char → Option (List Char)
  | [], rest => some rest
  | _, [] => none
  | a :: as_, b :: bs => if a = b then dropLit as_ bs else none

/-- The lazy `.+?\]` tail: the least index `j ≥ 1` holding `]`, with no
newline among the characters `.` must match before it.  Returns `j`. -/
def lazyCloseIdx : List Char → Nat → Option Nat
  | [], _ => none
  | c :: rest, i =>
    if 1 ≤ i ∧ c = ']' then some i
    else if c = '\n' then none
    else lazyCloseIdx rest (i + 1)

/-- Length of the regex match starting at the current position (`atStart`
records whether this is position 0, for `^`), or `none`.  The seven
alternatives are tried in source order. -/
def matchAltsAt (family cs : List Char) (atStart : Bool) : Option Nat :=
  let fl := family.length
  let alt12345 : Option Nat :=
    match dropLit family cs with
    | none => none
    | some r1 =>
      match r1 with
      | '*' :: d1 :: d2 :: _ =>
        if d1.isDigit ∧ d2.isDigit then some (fl + 3)
        else if d1.isDigit then some (fl + 2)
        else none
      | '*' :: d1 :: [] => if d1.isDigit then some (fl + 2) else none
      | '[' :: r2 =>
        match lazyCloseIdx r2 0 with
        | some j => some (fl + 1 + j + 1)
        | none =>
          if atStart ∧ r1 = [] then some fl
          else match r1 with
               | c :: _ => if c ∈ classChars then some (fl + 1) else none
               | [] => none
      | _ =>
        if atStart ∧ r1 = [] then some fl
        else match r1 with
             | c :: _ => if c ∈ classChars then some (fl + 1) else none
             | [] => none
  match alt12345 with
  | some n => some n
  | none =>
    match cs with
    | c1 :: cs' =>
      if c1 ∈ classChars then
        match dropLit family cs' with
        | none => none
        | some r =>
          match r with
          | [] => some (fl + 1)
          | c2 :: _ => if c2 ∈ classChars then some (fl + 2) else none
      else none
    | [] => none

/-- `value.match(regex)` with the `g` flag: scan left to right, collect each
match and resume after it. -/
def regexScan (family : List Char) : Nat → List Char → Bool → List (List Char)
  | 0, _, _ => []
  | fuel + 1, cs, atStart =>
    match cs with
    | [] => []
    | _ :: rest =>
      match matchAltsAt family cs atStart with
      | some len => cs.take len :: regexScan family fuel (cs.drop len) false
      | none => regexScan family fuel rest false

/-- The three case variants generated per synthetic name (lines 695-700 and
717-722): the name as given, lowercased, and the lowercase capitalized.  An
empty name would make `lower[0]` `undefined` and `toUpperCase` throw. -/
structure NameTriple where
  given : String
  lower : String
  mixed : String
deriving DecidableEq, Repr

/-- Build the three case variants for one name (`toLowerCase` per character;
the names at hand are ASCII). -/
def mkTriple (nm : String) : Except JSErr NameTriple :=
  let lower := String.mk (nm.data.map Char.toLower)
  match lower.data with
  | [] => .error (.typeError "cannot read toUpperCase of undefined")
  | c :: rest => .ok ⟨nm, lower, String.mk (c.toUpper :: rest)⟩

/-- `parseInt` applied to a short slice: leading whitespace skipped, then a
nonempty digit prefix, else `NaN` (`none`). -/
def parseIntJs (cs : List Char) : Option Nat :=
  match (cs.dropWhile isJsSpace).takeWhile Char.isDigit with
  | [] => none
  | ds => some (ds.foldl (fun a c => a * 10 + (c.toNat - 48)) 0)

/-- `lastIndexOf`, valid when the character occurs. -/
def lastIdxOf (cs : List Char) (c : Char) : Nat :=
  cs.length - 1 - cs.reverse.indexOf c

/-- The attribute-scanning loop of `_findMultiplier` (lines 665-674): the
first attribute value (in insertion order) whose match list has an entry at
`matchIndex` supplies that match; non-string values are skipped. -/
def pickMatch (family : List Char) (matchIndex : Nat) :
    List (String × AttrVal) → List Char
  | [] => []
  | (_, v) :: rest =>
    match v with
    | .b _ => pickMatch family matchIndex rest
    | .s sv =>
      let ms := regexScan family (sv.data.length + 1) sv.data true
      match ms.get? matchIndex with
      | some m => if m.length > 0 then m else pickMatch family matchIndex rest
      | none => pickMatch family matchIndex rest

/-- `_findMultiplier(component, searchAttribute, specifiedNameArray,
defaultName, matchIndex)` (lines 657-725): locate the `matchIndex`-th
occurrence of the attribute family across the component's attribute values;
a bracketed list yields one name per comma-separated entry, a `*N`/`*NN`
suffix yields `N` names built from the default base name and a 1-based index,
a bare occurrence yields one such name; no occurrence (or no attributes at
all) yields 0.  The returned list is the content of `specifiedNameArray`. -/
def findMultiplier (component : QRElement) (searchAttribute : String)
    (defaultName : String) (matchIndex : Nat) :
    Except JSErr (Nat × List NameTriple) :=
  let attributes := component.attributes
  if attributes.length ≤ 0 then .ok (0, [])
  else
    let attrMatch := pickMatch searchAttribute.data matchIndex attributes
    if attrMatch = [] then .ok (0, [])
    else if '[' ∈ attrMatch ∧ ']' ∈ attrMatch then
      let fieldNameList :=
        (attrMatch.drop (attrMatch.indexOf '[' + 1)).take
          (lastIdxOf attrMatch ']' - (attrMatch.indexOf '[' + 1))
      let fieldNameArray := fieldNameList.splitOn ','
      if fieldNameArray.length = 0 then .ok (0, [])
      else
        match fieldNameArray.mapM (fun f => mkTriple (String.mk (jsTrim f))) with
        | .error err => .error err
        | .ok triples => .ok (fieldNameArray.length, triples)
    else
      let len := attrMatch.length
      let num : Nat :=
        if 4 ≤ len ∧ charAt? attrMatch (len - 3) = some '*' ∧
            (parseIntJs (attrMatch.drop (len - 2))).isSome then
          (parseIntJs (attrMatch.drop (len - 2))).getD 1
        else if 3 ≤ len ∧ charAt? attrMatch (len - 2) = some '*' ∧
            (parseIntJs (attrMatch.drop (len - 1))).isSome then
          (parseIntJs (attrMatch.drop (len - 1))).getD 1
        else 1
      match (List.range num).mapM
          (fun i => mkTriple (String.mk (jsTrim defaultName.data) ++ toString (i + 1))) with
      | .error err => .error err
      | .ok triples => .ok (num, triples)

/-!  ## Common observation helpers  -/

/-- Extract the tree of a successful run (the empty tree on error; every use
is paired with a proof or assertion that the run succeeded). -/
def okD {α : Type} : Except JSErr (NaryTreeSt α) → NaryTreeSt α
  | .ok t => t
  | .error _ => emptyNaryTree α

/-- Is the result a raised `SyntaxError`? -/
def isSyntaxErr {β : Type} : Except JSErr β → Bool
  | .error (.syntaxError _) => true
  | _ => false

/-- Decidable equality for `Except` results whose two components have it. -/
instance {ε β : Type} [DecidableEq ε] [DecidableEq β] : DecidableEq (Except ε β) := fun a b =>
  match a, b with
  | .error e, .error f =>
    if h : e = f then isTrue (by rw [h]) else isFalse (fun hh => h (Except.error.inj hh))
  | .ok x, .ok y =>
    if h : x = y then isTrue (by rw [h]) else isFalse (fun hh => h (Except.ok.inj hh))
  | .error _, .ok _ => isFalse (fun hh => Except.noConfusion hh)
  | .ok _, .error _ => isFalse (fun hh => Except.noConfusion hh)

/-- Is `needle` a contiguous substring of `hay`? -/
def subSearch (hay needle : List Char) : Bool :=
  match hay with
  | [] => needle.isEmpty
  | _ :: rest => needle.isPrefixOf hay || subSearch rest needle

/-- Substring test used to inspect diagnostic messages. -/
def strContains (hay needle : String) : Bool :=
  subSearch hay.data needle.data

/-- A tree state whose bookkeeping supports `add`: either properly empty, or
nonempty with a live root object.  Every state the operations produce is good. -/
def GoodT {α : Type} (t : NaryTreeSt α) : Prop :=
  (t.size = 0 ∧ t.root? = none) ∨
    (∃ r d, t.root? = some r ∧ t.heap r = some d ∧ t.size ≠ 0)

/-- A tree state with a live root object. -/
def RootedT {α : Type} (t : NaryTreeSt α) : Prop :=
  ∃ r d, t.root? = some r ∧ t.heap r = some d

/-- Is this element an `App` open tag (the phase-2 test)? -/
def isAppOpen (e : QRElement) : Bool :=
  e.name = "App" ∧ e.subtype = "opentag"

/-- Is this element a config element (the phase-1 test)? -/
def isConfigEl (e : QRElement) : Bool :=
  e.type = "config"

/-- `parseMarkup` on `<Foo>`: a document whose lexed element list contains an
open-tag component (`Foo`) with no closing tag anywhere. -/
def c6foo : Except JSErr ParseResult :=
  parseMarkup (emptyNaryTree Nat) (.str "<Foo>")

/-- The markup of the C6 witness: `App` is present and `Foo` has no closer. -/
def c6wCode : String := "<App> <Foo> </App>"

/-- The lexed element list of `c6wCode`. -/
def c6wElems : List QRElement :=
  [{ name := "App", type := "component", subtype := "opentag", attributes := [] },
   { name := "Foo", type := "component", subtype := "opentag", attributes := [] },
   { name := "/App", type := "component", subtype := "closetag", attributes := [] }]

/-!  ## Claim C1: mutation during traversal  -/

/-- Build a root (value 10) with two children (11, 12). -/
def c1ops : List (TreeOp Nat) := [.add 10, .addLast 11 0, .addLast 12 0]

/-- The C1 scenario tree. -/
def c1tree : NaryTreeSt Nat := okD (runOps (emptyNaryTree Nat) c1ops)

/-- The C1 tree after a structural mutation (a fourth node added under the
root) performed between two pulls of a level-order traversal. -/
def c1treeMut : NaryTreeSt Nat := okD (NaryTreeSt.addAsLastChild 13 0 c1tree)

/-!  ## Claim C2: removeSubtree size accounting  -/

/-- Build the chain 1 → 2 → 3 (ids 0 → 1 → 2). -/
def c2ops : List (TreeOp Nat) := [.add 1, .addLast 2 0, .addLast 3 1]

/-- The C2 scenario tree. -/
def c2tree : NaryTreeSt Nat := okD (runOps (emptyNaryTree Nat) c2ops)

/-- The result of removing the subtree rooted at value 2 (two nodes: the node
and its child). -/
def c2after : Except JSErr (NaryTreeSt Nat) :=
  NaryTreeSt.removeSubtree (some 2) none c2tree

/-!  ## Claim C3: parsing the adjacent-tag document  -/

/-- `parseMarkup` on the exact claim input, with tags adjacent. -/
def c3parse : Except JSErr ParseResult :=
  parseMarkup (emptyNaryTree Nat) (.str "<App><Header/></App>")

/-- `parseMarkup` on the same document with one space between tags. -/
def c3parseSpaced : Except JSErr ParseResult :=
  parseMarkup (emptyNaryTree Nat) (.str "<App> <Header/> </App>")

/-- The successful spaced parse. -/
def c3r : ParseResult :=
  match c3parseSpaced with
  | .ok r => r
  | .error _ => ⟨emptyNaryTree Nat, []⟩

/-!  ## Claim C7: mismatched nesting diagnostics  -/

/-- A document with mismatched nesting (`<Foo>` closed by `</Bar>`) in which
`Foo` has no closing tag anywhere. -/
def c7bad : Except JSErr ParseResult :=
  parseMarkup (emptyNaryTree Nat) (.str "<App> <Foo> </Bar> </App>")

/-- The same mismatch with a `</Foo>` present later, so the closing-tag
validation pass succeeds and the build reaches the stack check. -/
def c7good : Except JSErr ParseResult :=
  parseMarkup (emptyNaryTree Nat) (.str "<App> <Foo> </Bar> </Foo> </App>")

/-!  ## Claim C10: non-string arguments to parseMarkup  -/

/-!  ## Claim C5: multiplier resolution  -/

/-- An element whose `hooks` attribute value is the multiplier expression
`useState*3`. -/
def c5elMult : QRElement :=
  { name := "T", type := "component", subtype := "opentag",
    attributes := [("hooks", .s "useState*3")] }

/-- An element whose `hooks` attribute value is the named list
`hooks[login,logout]`. -/
def c5elList : QRElement :=
  { name := "T", type := "component", subtype := "opentag",
    attributes := [("hooks", .s "hooks[login,logout]")] }

/-- An element whose `hooks` attribute value is the bare token `useState`. -/
def c5elBare : QRElement :=
  { name := "T", type := "component", subtype := "opentag",
    attributes := [("hooks", .s "useState")] }

/-- An element with attributes but no trace of the `useState` family. -/
def c5elAbsent : QRElement :=
  { name := "T", type := "component", subtype := "opentag",
    attributes := [("forminputs", .s "name,email")] }

/-!  ## Claim C4: size vs. reachable nodes  -/

/-- A call sequence whose final `addAsLastChild` passes a STALE parent: the
node holding 2 is removed from the tree (it stays alive as a JavaScript
object), then a child is attached to it. -/
def c4ops : List (TreeOp Nat) := [.add 1, .addLast 2 0, .removeVal 2, .addLast 3 1]

/-- The tree state after `c4ops`. -/
def c4tree : NaryTreeSt Nat := okD (runOps (emptyNaryTree Nat) c4ops)

/-!  ## Claim C8: search calls  -/

/-- An object-valued tree for the `...ByObjectProperty` searches: a root
holding `{id: 7}` with one child holding `{id: 8}`. -/
def c8jtree : NaryTreeSt JObj :=
  okD (runOps (emptyNaryTree JObj) [.add [("id", 7)], .addLast [("id", 8)] 0])

/-!  ## Claim C9: height semantics  -/

/-- A two-node chain: root (value 1, id 0) with a single child (value 2,
id 1). Its longest root-to-leaf path has one edge and two nodes. -/
def c9tree : NaryTreeSt Nat := okD (runOps (emptyNaryTree Nat) [.add 1, .addLast 2 0])

/-- The shape realized by `c9tree`. -/
def c9shape : Shape := Shape.node 0 [Shape.node 1 []]


/-!  ## Supporting lemmas  -/

theorem Heap.set_same {α : Type} (h : Heap α) (i : NodeId) (d : NodeData α) :
    Heap.set h i d i = some d := by
  simp [Heap.set]

theorem Heap.set_other {α : Type} (h : Heap α) (i j : NodeId) (d : NodeData α)
    (hne : j ≠ i) : Heap.set h i d j = h j := by
  simp [Heap.set, hne]

/-- The empty tree is good. -/
theorem goodT_empty {α : Type} : GoodT (emptyNaryTree α) := by
  exact Or.inl ⟨rfl, rfl⟩

theorem Shape.idsF_append (a b : List Shape) :
    Shape.idsF (a ++ b) = Shape.idsF a ++ Shape.idsF b := by
  induction a with
  | nil => rfl
  | cons s ss ih => simp [Shape.idsF, ih]

theorem decodeF_append {α : Type} (h : Heap α) (a b : List Shape) :
    decodeF h (a ++ b) = (decodeF h a && decodeF h b) := by
  induction a with
  | nil => simp [decodeF]
  | cons s ss ih => simp [decodeF, ih, Bool.and_assoc]

mutual

theorem decode_set_frame {α : Type} (h : Heap α) (i : NodeId) (d : NodeData α) :
    ∀ sh : Shape, i ∉ sh.ids → decodeB (h.set i d) sh = decodeB h sh
  | .node j kids, hmem => by
    have hij : j ≠ i := by
      intro e
      exact hmem (by simp [Shape.ids, e])
    have hk : i ∉ Shape.idsF kids := fun hx => hmem (by simp [Shape.ids, hx])
    simp only [decodeB, Heap.set_other h i j d hij,
      decodeF_set_frame h i d kids hk]

theorem decodeF_set_frame {α : Type} (h : Heap α) (i : NodeId) (d : NodeData α) :
    ∀ l : List Shape, i ∉ Shape.idsF l → decodeF (h.set i d) l = decodeF h l
  | [], _ => rfl
  | s :: ss, hmem => by
    have h1 : i ∉ s.ids := fun hx => hmem (by simp [Shape.idsF, hx])
    have h2 : i ∉ Shape.idsF ss := fun hx => hmem (by simp [Shape.idsF, hx])
    simp only [decodeF, decode_set_frame h i d s h1, decodeF_set_frame h i d ss h2]

end

theorem Shape.top_setKids (p : NodeId) (ks : List Shape) (sh : Shape) :
    (Shape.setKids p ks sh).top = sh.top := by
  cases sh with
  | node i kids => by_cases hip : i = p <;> simp [Shape.setKids, hip, Shape.top]

theorem Shape.tops_setKidsF (p : NodeId) (ks : List Shape) (l : List Shape) :
    (Shape.setKidsF p ks l).map Shape.top = l.map Shape.top := by
  induction l with
  | nil => rfl
  | cons s ss ih => simp [Shape.setKidsF, Shape.top_setKids, ih]

mutual

theorem setKids_not_mem (p : NodeId) (ks : List Shape) :
    ∀ sh : Shape, p ∉ sh.ids → Shape.setKids p ks sh = sh
  | .node i kids, hmem => by
    have hip : i ≠ p := by
      intro e
      exact hmem (by simp [Shape.ids, e])
    have hk : p ∉ Shape.idsF kids := fun hx => hmem (by simp [Shape.ids, hx])
    simp [Shape.setKids, hip, setKidsF_not_mem p ks kids hk]

theorem setKidsF_not_mem (p : NodeId) (ks : List Shape) :
    ∀ l : List Shape, p ∉ Shape.idsF l → Shape.setKidsF p ks l = l
  | [], _ => rfl
  | s :: ss, hmem => by
    have h1 : p ∉ s.ids := fun hx => hmem (by simp [Shape.idsF, hx])
    have h2 : p ∉ Shape.idsF ss := fun hx => hmem (by simp [Shape.idsF, hx])
    simp [Shape.setKidsF, setKids_not_mem p ks s h1, setKidsF_not_mem p ks ss h2]

end

mutual

theorem kidsAt_none_not_mem (p : NodeId) :
    ∀ sh : Shape, Shape.kidsAt? p sh = none → p ∉ sh.ids
  | .node i kids, hnone => by
    rw [Shape.kidsAt?] at hnone
    by_cases hip : i = p
    · simp [hip] at hnone
    · rw [if_neg hip] at hnone
      have := kidsAtF_none_not_mem p kids hnone
      simp [Shape.ids, this]
      exact fun e => hip e.symm

theorem kidsAtF_none_not_mem (p : NodeId) :
    ∀ l : List Shape, Shape.kidsAtF? p l = none → p ∉ Shape.idsF l
  | [], _ => by simp [Shape.idsF]
  | s :: ss, hnone => by
    rw [Shape.kidsAtF?] at hnone
    rcases hh : Shape.kidsAt? p s with _ | r
    · rw [hh] at hnone
      have h1 := kidsAt_none_not_mem p s hh
      have h2 := kidsAtF_none_not_mem p ss hnone
      simp [Shape.idsF, h1, h2]
    · rw [hh] at hnone
      exact absurd hnone (by simp)

end

mutual

theorem kidsAt_some_mem (p : NodeId) (ks : List Shape) :
    ∀ sh : Shape, Shape.kidsAt? p sh = some ks → p ∈ sh.ids
  | .node i kids, hsome => by
    rw [Shape.kidsAt?] at hsome
    by_cases hip : i = p
    · simp [Shape.ids, hip]
    · rw [if_neg hip] at hsome
      have := kidsAtF_some_mem p ks kids hsome
      simp [Shape.ids, this]

theorem kidsAtF_some_mem (p : NodeId) (ks : List Shape) :
    ∀ l : List Shape, Shape.kidsAtF? p l = some ks → p ∈ Shape.idsF l
  | s :: ss, hsome => by
    rw [Shape.kidsAtF?] at hsome
    rcases hh : Shape.kidsAt? p s with _ | r
    · rw [hh] at hsome
      have := kidsAtF_some_mem p ks ss hsome
      simp [Shape.idsF, this]
    · have := kidsAt_some_mem p r s hh
      simp [Shape.idsF, this]

end

mutual

theorem kidsAt_decode {α : Type} (h : Heap α) (p : NodeId) (ks : List Shape) :
    ∀ sh : Shape, decodeB h sh = true → Shape.kidsAt? p sh = some ks →
      ∃ d, h p = some d ∧ d.children = ks.map Shape.top ∧ decodeF h ks = true
  | .node i kids, hdec, hsome => by
    rcases hmatch : h i with _ | d
    · simp [decodeB, hmatch] at hdec
    · have hch : d.children = kids.map Shape.top ∧ decodeF h kids = true := by
        simpa [decodeB, hmatch] using hdec
      rw [Shape.kidsAt?] at hsome
      by_cases hip : i = p
      · subst hip
        rw [if_pos rfl] at hsome
        injection hsome with hks
        subst hks
        exact ⟨d, hmatch, hch.1, hch.2⟩
      · rw [if_neg hip] at hsome
        exact kidsAtF_decode h p ks kids hch.2 hsome

theorem kidsAtF_decode {α : Type} (h : Heap α) (p : NodeId) (ks : List Shape) :
    ∀ l : List Shape, decodeF h l = true → Shape.kidsAtF? p l = some ks →
      ∃ d, h p = some d ∧ d.children = ks.map Shape.top ∧ decodeF h ks = true
  | s :: ss, hdec, hsome => by
    have hparts : decodeB h s = true ∧ decodeF h ss = true := by
      simpa [decodeF] using hdec
    rw [Shape.kidsAtF?] at hsome
    rcases hh : Shape.kidsAt? p s with _ | r
    · rw [hh] at hsome
      exact kidsAtF_decode h p ks ss hparts.2 hsome
    · rw [hh] at hsome
      injection hsome with hr
      rw [← hr]
      exact kidsAt_decode h p r s hparts.1 hh

end

mutual

theorem kidsAt_exists (p : NodeId) :
    ∀ sh : Shape, p ∈ sh.ids → ∃ ks, Shape.kidsAt? p sh = some ks
  | .node i kids, hmem => by
    rw [Shape.kidsAt?]
    by_cases hip : i = p
    · exact ⟨kids, by rw [if_pos hip]⟩
    · rw [if_neg hip]
      apply kidsAtF_exists p kids
      rcases (by simpa [Shape.ids] using hmem : p = i ∨ p ∈ Shape.idsF kids) with e | hm
      · exact absurd e.symm hip
      · exact hm

theorem kidsAtF_exists (p : NodeId) :
    ∀ l : List Shape, p ∈ Shape.idsF l → ∃ ks, Shape.kidsAtF? p l = some ks
  | s :: ss, hmem => by
    rw [Shape.kidsAtF?]
    rcases hh : Shape.kidsAt? p s with _ | r
    · apply kidsAtF_exists p ss
      rcases (by simpa [Shape.idsF] using hmem : p ∈ s.ids ∨ p ∈ Shape.idsF ss) with hm | hm
      · exact absurd hm (kidsAt_none_not_mem p s hh)
      · exact hm
    · exact ⟨r, rfl⟩

end

/-- The effective queue of an iterator state: the queue once the pending
node's children have been enqueued. -/
theorem levelSeq_forest {α : Type} (h : Heap α) :
    ∀ (fuel : Nat) (shs : List Shape) (s : LevelIterSt),
      decodeF h shs = true →
      (match s.pending with
       | none => s.queue
       | some p => s.queue ++ NaryTreeSt.childrenOf h p) = shs.map Shape.top →
      (Shape.idsF shs).length < fuel →
      ∃ L, levelSeq h fuel s = .ok L ∧ L.Perm (Shape.idsF shs) := by
  intro fuel
  induction fuel with
  | zero => intro shs s _ _ hlt; omega
  | succ f ih =>
    intro shs s hdec hq hlt
    have hnext : levelIterNext h s =
        (match shs.map Shape.top with
         | [] => .ok none
         | n :: rest => .ok (some (n, ⟨rest, some n⟩))) := by
      rw [levelIterNext]
      rw [show (match s.pending with
          | none => s.queue
          | some p => s.queue ++ NaryTreeSt.childrenOf h p) = shs.map Shape.top from hq]
    cases shs with
    | nil =>
      refine ⟨[], ?_, List.Perm.refl _⟩
      rw [levelSeq, hnext]
      simp
    | cons s0 rest =>
      obtain ⟨n, kids⟩ := s0
      have hdecs : decodeB h (.node n kids) = true ∧ decodeF h rest = true := by
        simpa [decodeF] using hdec
      rcases hmatch : h n with _ | d
      · simp [decodeB, hmatch] at hdecs
      · have hch : d.children = kids.map Shape.top ∧ decodeF h kids = true := by
          have := hdecs.1
          simpa [decodeB, hmatch] using this
        have htop : (Shape.node n kids :: rest).map Shape.top
            = n :: rest.map Shape.top := by simp [Shape.top]
        have hqueue : (match (some n : Option NodeId) with
            | none => rest.map Shape.top
            | some p => rest.map Shape.top ++ NaryTreeSt.childrenOf h p)
            = (rest ++ kids).map Shape.top := by
          simp [NaryTreeSt.childrenOf, hmatch, hch.1]
        have hdec2 : decodeF h (rest ++ kids) = true := by
          rw [decodeF_append, hdecs.2, hch.2]
          rfl
        have hlen : (Shape.idsF (rest ++ kids)).length < f := by
          rw [Shape.idsF_append]
          have : (Shape.idsF (Shape.node n kids :: rest)).length
              = 1 + (Shape.idsF kids).length + (Shape.idsF rest).length := by
            simp [Shape.idsF, Shape.ids]
            omega
          rw [this] at hlt
          simp only [List.length_append]
          omega
        obtain ⟨L', hrun, hperm⟩ := ih (rest ++ kids) ⟨rest.map Shape.top, some n⟩
          hdec2 hqueue hlen
        refine ⟨n :: L', ?_, ?_⟩
        · rw [levelSeq, hnext, htop]
          simp [hrun]
        · have h1 : Shape.idsF (Shape.node n kids :: rest)
              = n :: (Shape.idsF kids ++ Shape.idsF rest) := by
            simp [Shape.idsF, Shape.ids]
          rw [h1]
          refine List.Perm.cons n ?_
          have hp2 : L'.Perm (Shape.idsF rest ++ Shape.idsF kids) := by
            rwa [Shape.idsF_append] at hperm
          exact hp2.trans List.perm_append_comm

/-- The level-order sequence of a well-formed tree succeeds and enumerates the
shape's ids (in particular it has `size` elements, all distinct). -/
theorem levelList_of_shape {α : Type} (t : NaryTreeSt α) (sh : Shape)
    (hsh : IsShapeOf t sh) :
    ∃ L, t.levelList t.root? = .ok L ∧ L.Perm sh.ids := by
  obtain ⟨hroot, hdec, hnd, hbound, hsize⟩ := hsh
  have hids : Shape.idsF [sh] = sh.ids := by simp [Shape.idsF]
  have := levelSeq_forest t.heap (t.size + 1) [sh] (levelIterStart t.root?)
    (by simp [decodeF, hdec]) (by simp [hroot, levelIterStart, Shape.top]) ?hlen
  · obtain ⟨L, hrun, hperm⟩ := this
    exact ⟨L, hrun, by rwa [hids] at hperm⟩
  · rw [hids, ← hsize]
    omega

mutual

theorem heightS_le_ids_length : ∀ sh : Shape, sh.heightS ≤ sh.ids.length
  | .node i [] => by simp [Shape.heightS, Shape.ids]
  | .node i (k :: ks) => by
    have := heightFMax_le_idsF_length (k :: ks)
    simp only [Shape.heightS, Shape.ids, List.length_cons]
    omega

theorem heightFMax_le_idsF_length :
    ∀ l : List Shape, Shape.heightFMax l ≤ (Shape.idsF l).length
  | [] => by simp [Shape.heightFMax, Shape.idsF]
  | s :: ss => by
    have h1 := heightS_le_ids_length s
    have h2 := heightFMax_le_idsF_length ss
    simp only [Shape.heightFMax, Shape.idsF, List.length_append]
    omega

end

/-- Every shape has height at least 1. -/
theorem heightS_pos (sh : Shape) : 1 ≤ sh.heightS := by
  cases sh with
  | node i kids => cases kids <;> simp [Shape.heightS]

mutual

theorem heightAt_decode {α : Type} (h : Heap α) :
    ∀ (sh : Shape) (fuel : Nat), decodeB h sh = true → sh.heightS ≤ fuel →
      NaryTreeSt.heightAt h fuel sh.top = sh.heightS
  | .node n kids, fuel, hdec, hle => by
    rcases hmatch : h n with _ | d
    · simp [decodeB, hmatch] at hdec
    · have hch : d.children = kids.map Shape.top ∧ decodeF h kids = true := by
        simpa [decodeB, hmatch] using hdec
      have h1 : 1 ≤ (Shape.node n kids).heightS := heightS_pos _
      cases fuel with
      | zero => omega
      | succ f =>
        cases kids with
        | nil =>
          have hnil : d.children = [] := by simpa using hch.1
          simp [NaryTreeSt.heightAt, Shape.top, hmatch, hnil, Shape.heightS]
        | cons k ks =>
          have hfm : Shape.heightFMax (k :: ks) ≤ f := by
            have he : (Shape.node n (k :: ks)).heightS
                = 1 + Shape.heightFMax (k :: ks) := rfl
            omega
          have hfold := heightFoldl_decode h (k :: ks) f 0 hch.2 hfm
          have hcons : d.children = (k :: ks).map Shape.top := hch.1
          show NaryTreeSt.heightAt h (f + 1) n = (Shape.node n (k :: ks)).heightS
          rw [NaryTreeSt.heightAt]
          simp only [hmatch, hcons, List.map_cons]
          rw [← List.map_cons, hfold, Nat.zero_max]
          rfl

theorem heightFoldl_decode {α : Type} (h : Heap α) :
    ∀ (l : List Shape) (fuel : Nat) (acc : Nat), decodeF h l = true →
      Shape.heightFMax l ≤ fuel →
      (l.map Shape.top).foldl (fun a c => max a (NaryTreeSt.heightAt h fuel c)) acc
        = max acc (Shape.heightFMax l)
  | [], fuel, acc, _, _ => by simp [Shape.heightFMax]
  | s :: ss, fuel, acc, hdec, hle => by
    have hparts : decodeB h s = true ∧ decodeF h ss = true := by
      simpa [decodeF] using hdec
    have hsle : s.heightS ≤ fuel := by
      have : Shape.heightFMax (s :: ss) = max s.heightS (Shape.heightFMax ss) := rfl
      omega
    have hssle : Shape.heightFMax ss ≤ fuel := by
      have : Shape.heightFMax (s :: ss) = max s.heightS (Shape.heightFMax ss) := rfl
      omega
    have hhead := heightAt_decode h s fuel hparts.1 hsle
    have hrec := heightFoldl_decode h ss fuel (max acc s.heightS) hparts.2 hssle
    simp only [List.map_cons, List.foldl_cons, hhead, hrec]
    have : Shape.heightFMax (s :: ss) = max s.heightS (Shape.heightFMax ss) := rfl
    rw [this, Nat.max_assoc]

end

mutual

theorem decode_setKids {α : Type} (h h' : Heap α) (p : NodeId) (newKs : List Shape)
    (hpn : ∃ v, h' p = some ⟨v, newKs.map Shape.top⟩)
    (hnew : decodeF h' newKs = true) :
    ∀ sh : Shape, (∀ q ∈ sh.ids, q ≠ p → h' q = h q) →
      decodeB h sh = true → decodeB h' (Shape.setKids p newKs sh) = true
  | .node i kids, hext, hdec => by
    rcases hmatch : h i with _ | d
    · simp [decodeB, hmatch] at hdec
    · have hch : d.children = kids.map Shape.top ∧ decodeF h kids = true := by
        simpa [decodeB, hmatch] using hdec
      by_cases hip : i = p
      · subst hip
        obtain ⟨v, hv⟩ := hpn
        simp [Shape.setKids, decodeB, hv, hnew]
      · have hhi : h' i = h i := hext i (by simp [Shape.ids]) hip
        have hkids := decodeF_setKids h h' p newKs ⟨(hpn.choose), hpn.choose_spec⟩ hnew kids
          (fun q hq hqp => hext q (by simp [Shape.ids, hq]) hqp) hch.2
        simp [Shape.setKids, hip, decodeB, hhi, hmatch, Shape.tops_setKidsF, hch.1, hkids]

theorem decodeF_setKids {α : Type} (h h' : Heap α) (p : NodeId) (newKs : List Shape)
    (hpn : ∃ v, h' p = some ⟨v, newKs.map Shape.top⟩)
    (hnew : decodeF h' newKs = true) :
    ∀ l : List Shape, (∀ q ∈ Shape.idsF l, q ≠ p → h' q = h q) →
      decodeF h l = true → decodeF h' (Shape.setKidsF p newKs l) = true
  | [], _, _ => rfl
  | s :: ss, hext, hdec => by
    have hparts : decodeB h s = true ∧ decodeF h ss = true := by
      simpa [decodeF] using hdec
    have h1 := decode_setKids h h' p newKs hpn hnew s
      (fun q hq hqp => hext q (by simp [Shape.idsF, hq]) hqp) hparts.1
    have h2 := decodeF_setKids h h' p newKs hpn hnew ss
      (fun q hq hqp => hext q (by simp [Shape.idsF, hq]) hqp) hparts.2
    simp [Shape.setKidsF, decodeF, h1, h2]

end

mutual

theorem ids_setKids_multiset (p : NodeId) (newKs : List Shape) (ks : List Shape) :
    ∀ sh : Shape, sh.ids.Nodup → Shape.kidsAt? p sh = some ks →
      (↑(Shape.setKids p newKs sh).ids : Multiset NodeId) + ↑(Shape.idsF ks)
        = ↑sh.ids + ↑(Shape.idsF newKs)
  | .node i kids, hnd, hsome => by
    rw [Shape.kidsAt?] at hsome
    by_cases hip : i = p
    · rw [if_pos hip] at hsome
      injection hsome with hks
      subst hip
      rw [← hks]
      have e1 : Shape.setKids i newKs (Shape.node i kids) = Shape.node i newKs := by
        simp [Shape.setKids]
      rw [e1]
      show (↑(i :: Shape.idsF newKs) : Multiset NodeId) + ↑(Shape.idsF kids)
        = ↑(i :: Shape.idsF kids) + ↑(Shape.idsF newKs)
      simp only [← Multiset.cons_coe, Multiset.cons_add]
      rw [add_comm]
    · rw [if_neg hip] at hsome
      have hnd' : (Shape.idsF kids).Nodup := by
        have hx : (i :: Shape.idsF kids).Nodup := hnd
        exact hx.of_cons
      have hrec := idsF_setKidsF_multiset p newKs ks kids hnd' hsome
      have e1 : Shape.setKids p newKs (Shape.node i kids)
          = Shape.node i (Shape.setKidsF p newKs kids) := by
        simp [Shape.setKids, hip]
      rw [e1]
      show (↑(i :: Shape.idsF (Shape.setKidsF p newKs kids)) : Multiset NodeId)
          + ↑(Shape.idsF ks)
        = ↑(i :: Shape.idsF kids) + ↑(Shape.idsF newKs)
      simp only [← Multiset.cons_coe, Multiset.cons_add]
      rw [hrec]

theorem idsF_setKidsF_multiset (p : NodeId) (newKs : List Shape) (ks : List Shape) :
    ∀ l : List Shape, (Shape.idsF l).Nodup → Shape.kidsAtF? p l = some ks →
      (↑(Shape.idsF (Shape.setKidsF p newKs l)) : Multiset NodeId) + ↑(Shape.idsF ks)
        = ↑(Shape.idsF l) + ↑(Shape.idsF newKs)
  | s :: ss, hnd, hsome => by
    rw [Shape.kidsAtF?] at hsome
    have hnds : s.ids.Nodup ∧ (Shape.idsF ss).Nodup ∧ s.ids.Disjoint (Shape.idsF ss) := by
      have : (s.ids ++ Shape.idsF ss).Nodup := hnd
      rw [List.nodup_append] at this
      exact this
    rcases hh : Shape.kidsAt? p s with _ | r
    · rw [hh] at hsome
      have hnotmem : p ∉ s.ids := kidsAt_none_not_mem p s hh
      have hrec := idsF_setKidsF_multiset p newKs ks ss hnds.2.1 hsome
      simp only [Shape.setKidsF, Shape.idsF, setKids_not_mem p newKs s hnotmem,
        ← Multiset.coe_add]
      rw [add_assoc, hrec, ← add_assoc]
    · rw [hh] at hsome
      injection hsome with hr
      have hpm : p ∈ s.ids := kidsAt_some_mem p r s hh
      have hnotss : p ∉ Shape.idsF ss := hnds.2.2 hpm
      have hrec := ids_setKids_multiset p newKs ks s hnds.1 (by rw [hh, hr])
      simp only [Shape.setKidsF, Shape.idsF, setKidsF_not_mem p newKs ss hnotss,
        ← Multiset.coe_add]
      calc (↑(Shape.setKids p newKs s).ids : Multiset NodeId)
            + ↑(Shape.idsF ss) + ↑(Shape.idsF ks)
          = ↑(Shape.setKids p newKs s).ids + ↑(Shape.idsF ks) + ↑(Shape.idsF ss) := by
            rw [add_assoc, add_comm (↑(Shape.idsF ss) : Multiset NodeId), ← add_assoc]
        _ = ↑(Shape.ids s) + ↑(Shape.idsF newKs) + ↑(Shape.idsF ss) := by rw [hrec]
        _ = ↑(Shape.ids s) + ↑(Shape.idsF ss) + ↑(Shape.idsF newKs) := by
            rw [add_assoc, add_comm (↑(Shape.idsF newKs) : Multiset NodeId), ← add_assoc]

end

mutual

theorem kidsAt_sub_multiset (p : NodeId) (ks : List Shape) :
    ∀ sh : Shape, Shape.kidsAt? p sh = some ks →
      (↑(p :: Shape.idsF ks) : Multiset NodeId) ≤ ↑sh.ids
  | .node i kids, hsome => by
    rw [Shape.kidsAt?] at hsome
    by_cases hip : i = p
    · rw [if_pos hip] at hsome
      injection hsome with hks
      subst hip
      rw [← hks]
      simp [Shape.ids]
    · rw [if_neg hip] at hsome
      have hrec := kidsAtF_sub_multiset p ks kids hsome
      calc (↑(p :: Shape.idsF ks) : Multiset NodeId)
          ≤ ↑(Shape.idsF kids) := hrec
        _ ≤ ↑(Shape.ids (.node i kids)) := by
            show (↑(Shape.idsF kids) : Multiset NodeId) ≤ ↑(i :: Shape.idsF kids)
            simp only [← Multiset.cons_coe]
            exact Multiset.le_cons_self _ _

theorem kidsAtF_sub_multiset (p : NodeId) (ks : List Shape) :
    ∀ l : List Shape, Shape.kidsAtF? p l = some ks →
      (↑(p :: Shape.idsF ks) : Multiset NodeId) ≤ ↑(Shape.idsF l)
  | s :: ss, hsome => by
    rw [Shape.kidsAtF?] at hsome
    rcases hh : Shape.kidsAt? p s with _ | r
    · rw [hh] at hsome
      calc (↑(p :: Shape.idsF ks) : Multiset NodeId)
          ≤ ↑(Shape.idsF ss) := kidsAtF_sub_multiset p ks ss hsome
        _ ≤ ↑(Shape.idsF (s :: ss)) := by
            show (↑(Shape.idsF ss) : Multiset NodeId) ≤ ↑(s.ids ++ Shape.idsF ss)
            simp only [← Multiset.coe_add]
            exact le_add_self
    · rw [hh] at hsome
      injection hsome with hr
      calc (↑(p :: Shape.idsF ks) : Multiset NodeId)
          ≤ ↑(Shape.ids s) := kidsAt_sub_multiset p ks s (by rw [hh, hr])
        _ ≤ ↑(Shape.idsF (s :: ss)) := by
            show (↑(Shape.ids s) : Multiset NodeId) ≤ ↑(s.ids ++ Shape.idsF ss)
            simp only [← Multiset.coe_add]
            exact le_self_add

end

theorem Shape.top_mem_ids (sh : Shape) : sh.top ∈ sh.ids := by
  cases sh with
  | node i kids => simp [Shape.top, Shape.ids]

theorem tops_sub_idsF (l : List Shape) (x : NodeId) (hx : x ∈ l.map Shape.top) :
    x ∈ Shape.idsF l := by
  induction l with
  | nil => simp at hx
  | cons s ss ih =>
    simp only [List.map_cons, List.mem_cons] at hx
    simp only [Shape.idsF, List.mem_append]
    rcases hx with h | h
    · rw [h]
      exact Or.inl (Shape.top_mem_ids s)
    · exact Or.inr (ih h)

theorem kidsAtF_append (p : NodeId) (l₁ l₂ : List Shape) :
    Shape.kidsAtF? p (l₁ ++ l₂) =
      (match Shape.kidsAtF? p l₁ with
       | some r => some r
       | none => Shape.kidsAtF? p l₂) := by
  induction l₁ with
  | nil => simp [Shape.kidsAtF?]
  | cons s ss ih =>
    cases hh : Shape.kidsAt? p s with
    | some r => simp [Shape.kidsAtF?, hh]
    | none => simp [Shape.kidsAtF?, hh, ih]

theorem exists_first_top_split (target : NodeId) (kids : List Shape)
    (hmem : target ∈ kids.map Shape.top) :
    ∃ a tsh b, kids = a ++ tsh :: b ∧ tsh.top = target ∧ target ∉ a.map Shape.top := by
  induction kids with
  | nil => simp at hmem
  | cons k ks ih =>
    by_cases hk : k.top = target
    · exact ⟨[], k, ks, rfl, hk, by simp⟩
    · have hmem' : target ∈ ks.map Shape.top := by
        simp only [List.map_cons, List.mem_cons] at hmem
        rcases hmem with h | h
        · exact absurd h.symm hk
        · exact h
      obtain ⟨a, tsh, b, heq, htop, hnot⟩ := ih hmem'
      refine ⟨k :: a, tsh, b, by rw [heq]; rfl, htop, ?_⟩
      intro hx
      rw [List.map_cons] at hx
      rcases List.mem_cons.mp hx with h | h
      · exact hk h.symm
      · exact hnot h

theorem eraseIdx_indexOf_append {γ : Type} [DecidableEq γ] (a b : List γ) (x : γ)
    (hx : x ∉ a) :
    (a ++ x :: b).eraseIdx ((a ++ x :: b).indexOf x) = a ++ b := by
  induction a with
  | nil => simp
  | cons c cs ih =>
    have hcx : x ≠ c := by
      intro e
      exact hx (by simp [e])
    have hcs : x ∉ cs := fun h => hx (by simp [h])
    have hidx : List.indexOf x (c :: (cs ++ x :: b)) = List.indexOf x (cs ++ x :: b) + 1 :=
      List.indexOf_cons_ne _ (Ne.symm hcx)
    show (c :: (cs ++ x :: b)).eraseIdx (List.indexOf x (c :: (cs ++ x :: b))) = c :: (cs ++ b)
    rw [hidx, List.eraseIdx_cons_succ, ih hcs]

/-- The parent id together with the ids below one `kidsAt?` hit stay inside
the shape's id list and inherit its distinctness. -/
theorem kidsAt_sub_nodup (p : NodeId) (ks : List Shape) (sh : Shape)
    (hnd : sh.ids.Nodup) (hks : Shape.kidsAt? p sh = some ks) :
    (p :: Shape.idsF ks).Nodup ∧ ∀ q ∈ p :: Shape.idsF ks, q ∈ sh.ids := by
  have hle := kidsAt_sub_multiset p ks sh hks
  constructor
  · have hm : ((p :: Shape.idsF ks : List NodeId) : Multiset NodeId).Nodup :=
      Multiset.nodup_of_le hle (Multiset.coe_nodup.mpr hnd)
    exact Multiset.coe_nodup.mp hm
  · intro q hq
    have : q ∈ (↑sh.ids : Multiset NodeId) :=
      Multiset.mem_of_le hle (Multiset.mem_coe.mpr hq)
    exact Multiset.mem_coe.mp this

/-- Attaching a fresh leaf (id `t.next`) at any position of the child list of
an in-tree parent `p` preserves well-formedness: this is the common shape of
`add` (nonempty case), `addAsFirstChild`, `addAsLastChild` and
`addAtPosition`. -/
theorem attach_inv {α : Type} (t : NaryTreeSt α) (sh : Shape) (p : NodeId)
    (ks ks₁ ks₂ : List Shape) (d : NodeData α) (v : α)
    (hsh : IsShapeOf t sh) (hks : Shape.kidsAt? p sh = some ks)
    (hsplit : ks = ks₁ ++ ks₂) (hd : t.heap p = some d) :
    IsShapeOf
      { heap := (t.heap.set t.next ⟨v, []⟩).set p
          ⟨d.value, ks₁.map Shape.top ++ t.next :: ks₂.map Shape.top⟩,
        next := t.next + 1, root? := t.root?,
        size := t.size + 1, modCount := t.modCount + 1 }
      (Shape.setKids p (ks₁ ++ Shape.node t.next [] :: ks₂) sh) := by
  obtain ⟨hroot, hdec, hnd, hbound, hsize⟩ := hsh
  obtain ⟨hsubnd, hsubmem⟩ := kidsAt_sub_nodup p ks sh hnd hks
  have hpmem : p ∈ sh.ids := kidsAt_some_mem p ks sh hks
  have hpne : p ≠ t.next := Nat.ne_of_lt (hbound p hpmem)
  have hknotp : p ∉ Shape.idsF ks := (List.nodup_cons.mp hsubnd).1
  obtain ⟨d2, hd2, hch₀, hdecks⟩ := kidsAt_decode t.heap p ks sh hdec hks
  have hdd : d = d2 := by
    rw [hd] at hd2
    exact Option.some.inj hd2
  subst hdd
  set newKs : List Shape := ks₁ ++ Shape.node t.next [] :: ks₂ with hnewKs
  set h' : Heap α := (t.heap.set t.next ⟨v, []⟩).set p
      ⟨d.value, ks₁.map Shape.top ++ t.next :: ks₂.map Shape.top⟩ with hh'
  have hmaptops : newKs.map Shape.top
      = ks₁.map Shape.top ++ t.next :: ks₂.map Shape.top := by
    simp [hnewKs, Shape.top]
  have hfresh : ∀ q ∈ sh.ids, q ≠ t.next := fun q hq => Nat.ne_of_lt (hbound q hq)
  have hframe : ∀ q ∈ sh.ids, q ≠ p → h' q = t.heap q := by
    intro q hq hqp
    rw [hh', Heap.set_other _ _ _ _ hqp, Heap.set_other _ _ _ _ (hfresh q hq)]
  have hp' : h' p = some ⟨d.value, newKs.map Shape.top⟩ := by
    rw [hh', Heap.set_same, hmaptops]
  have hksplit : Shape.idsF ks = Shape.idsF ks₁ ++ Shape.idsF ks₂ := by
    rw [hsplit, Shape.idsF_append]
  have hks₁p : p ∉ Shape.idsF ks₁ := fun h => hknotp (by rw [hksplit]; simp [h])
  have hks₂p : p ∉ Shape.idsF ks₂ := fun h => hknotp (by rw [hksplit]; simp [h])
  have hks₁n : t.next ∉ Shape.idsF ks₁ := fun h =>
    hfresh _ (hsubmem _ (by rw [hksplit]; simp [h])) rfl
  have hks₂n : t.next ∉ Shape.idsF ks₂ := fun h =>
    hfresh _ (hsubmem _ (by rw [hksplit]; simp [h])) rfl
  have hdec12 : decodeF t.heap ks₁ = true ∧ decodeF t.heap ks₂ = true := by
    have := hdecks
    rw [hsplit, decodeF_append, Bool.and_eq_true] at this
    exact this
  have hframe₁ : decodeF h' ks₁ = decodeF t.heap ks₁ := by
    rw [hh', decodeF_set_frame _ _ _ _ hks₁p, decodeF_set_frame _ _ _ _ hks₁n]
  have hframe₂ : decodeF h' ks₂ = decodeF t.heap ks₂ := by
    rw [hh', decodeF_set_frame _ _ _ _ hks₂p, decodeF_set_frame _ _ _ _ hks₂n]
  have hleaf : decodeB h' (Shape.node t.next []) = true := by
    have hn' : h' t.next = some ⟨v, []⟩ := by
      rw [hh', Heap.set_other _ _ _ _ (Ne.symm hpne), Heap.set_same]
    simp [decodeB, hn', decodeF]
  have hnewdec : decodeF h' newKs = true := by
    rw [hnewKs, decodeF_append]
    simp only [decodeF, Bool.and_eq_true]
    exact ⟨by rw [hframe₁]; exact hdec12.1, hleaf, by rw [hframe₂]; exact hdec12.2⟩
  have hdec' : decodeB h' (Shape.setKids p newKs sh) = true :=
    decode_setKids t.heap h' p newKs ⟨d.value, hp'⟩ hnewdec sh hframe hdec
  have hmult := ids_setKids_multiset p newKs ks sh hnd hks
  have e1 : Shape.idsF newKs = Shape.idsF ks₁ ++ t.next :: Shape.idsF ks₂ := by
    rw [hnewKs, Shape.idsF_append]
    simp [Shape.idsF, Shape.ids]
  have e2 : (↑(Shape.idsF newKs) : Multiset NodeId)
      = ↑(Shape.idsF ks) + {t.next} := by
    rw [e1, hksplit]
    have hperm : (Shape.idsF ks₁ ++ t.next :: Shape.idsF ks₂).Perm
        ((Shape.idsF ks₁ ++ Shape.idsF ks₂) ++ [t.next]) :=
      List.perm_middle.trans (List.perm_append_singleton _ _).symm
    calc (↑(Shape.idsF ks₁ ++ t.next :: Shape.idsF ks₂) : Multiset NodeId)
        = ↑((Shape.idsF ks₁ ++ Shape.idsF ks₂) ++ [t.next]) :=
          Multiset.coe_eq_coe.mpr hperm
      _ = ↑(Shape.idsF ks₁ ++ Shape.idsF ks₂) + ↑([t.next] : List NodeId) := by
          simp only [← Multiset.coe_add]
      _ = ↑(Shape.idsF ks₁ ++ Shape.idsF ks₂) + {t.next} := by
          rw [Multiset.coe_singleton]
  have hm2 : (↑(Shape.setKids p newKs sh).ids : Multiset NodeId)
      = ↑sh.ids + {t.next} := by
    have h3 : (↑(Shape.setKids p newKs sh).ids : Multiset NodeId) + ↑(Shape.idsF ks)
        = (↑sh.ids + {t.next}) + ↑(Shape.idsF ks) := by
      rw [hmult, e2]
      abel
    exact add_right_cancel h3
  have hmemiff : ∀ q, q ∈ (Shape.setKids p newKs sh).ids ↔ (q ∈ sh.ids ∨ q = t.next) := by
    intro q
    constructor
    · intro hq
      have : q ∈ (↑sh.ids + {t.next} : Multiset NodeId) := by
        rw [← hm2]
        exact Multiset.mem_coe.mpr hq
      rcases Multiset.mem_add.mp this with h | h
      · exact Or.inl (Multiset.mem_coe.mp h)
      · exact Or.inr (Multiset.mem_singleton.mp h)
    · intro hq
      have : q ∈ (↑sh.ids + {t.next} : Multiset NodeId) := by
        rcases hq with h | h
        · exact Multiset.mem_add.mpr (Or.inl (Multiset.mem_coe.mpr h))
        · exact Multiset.mem_add.mpr (Or.inr (Multiset.mem_singleton.mpr h))
      rw [← hm2] at this
      exact Multiset.mem_coe.mp this
  have hnd' : (Shape.setKids p newKs sh).ids.Nodup := by
    rw [← Multiset.coe_nodup, hm2, add_comm, Multiset.singleton_add]
    rw [Multiset.nodup_cons]
    exact ⟨fun h => hfresh _ (Multiset.mem_coe.mp h) rfl,
      Multiset.coe_nodup.mpr hnd⟩
  have hlen : (Shape.setKids p newKs sh).ids.length = sh.ids.length + 1 := by
    have := congrArg Multiset.card hm2
    simpa using this
  refine ⟨?_, hdec', hnd', ?_, ?_⟩
  · show t.root? = some (Shape.setKids p newKs sh).top
    rw [Shape.top_setKids]
    exact hroot
  · intro i hi
    rcases (hmemiff i).mp hi with h | h
    · exact Nat.lt_succ_of_lt (hbound i h)
    · rw [h]
      exact Nat.lt_succ_self _
  · show t.size + 1 = (Shape.setKids p newKs sh).ids.length
    rw [hlen, hsize]

theorem inv_of_shape {α : Type} {t : NaryTreeSt α} (sh : Shape)
    (h : IsShapeOf t sh) : Inv t := by
  unfold Inv
  rw [h.1]
  exact ⟨sh, h⟩

theorem inv_clear {α : Type} (t : NaryTreeSt α) : Inv t.clear := rfl

theorem size_zero_of_root_none {α : Type} {t : NaryTreeSt α}
    (hinv : Inv t) (hr : t.root? = none) : t.size = 0 := by
  unfold Inv at hinv
  rw [hr] at hinv
  exact hinv

theorem shape_of_inv_root {α : Type} {t : NaryTreeSt α} (hinv : Inv t) (r : NodeId)
    (hr : t.root? = some r) : ∃ sh, IsShapeOf t sh := by
  unfold Inv at hinv
  rw [hr] at hinv
  exact hinv

theorem shape_of_inv_nonzero {α : Type} {t : NaryTreeSt α}
    (hinv : Inv t) (hsz : t.size ≠ 0) : ∃ sh, IsShapeOf t sh := by
  cases hr : t.root? with
  | none => exact absurd (size_zero_of_root_none hinv hr) hsz
  | some r => exact shape_of_inv_root hinv r hr

/-- The level-order run over an absent start node yields the empty list. -/
theorem levelSeq_none {α : Type} (h : Heap α) (fuel : Nat) (hf : 0 < fuel) :
    levelSeq h fuel (levelIterStart none) = .ok [] := by
  cases fuel with
  | zero => omega
  | succ f =>
    rw [levelSeq]
    simp [levelIterNext, levelIterStart]

/-- `add` preserves the well-formedness invariant. -/
theorem add_inv {α : Type} (t t' : NaryTreeSt α) (v : α)
    (hinv : Inv t) (h : t.add v = .ok t') : Inv t' := by
  by_cases hsz : t.size = 0
  · rw [NaryTreeSt.add, if_pos hsz] at h
    injection h with h
    subst h
    apply inv_of_shape (Shape.node t.next [])
    refine ⟨rfl, ?_, ?_, ?_, ?_⟩
    · simp [decodeB, Heap.set_same, decodeF]
    · simp [Shape.ids, Shape.idsF]
    · intro i hi
      have he : i = t.next := by simpa [Shape.ids, Shape.idsF] using hi
      rw [he]
      show t.next < t.next + 1
      exact Nat.lt_succ_self _
    · show t.size + 1 = (Shape.node t.next []).ids.length
      simp [Shape.ids, Shape.idsF, hsz]
  · obtain ⟨sh, hsh⟩ := shape_of_inv_nonzero hinv hsz
    obtain ⟨hroot, hdec, hnd, hbound, hsize⟩ := hsh
    cases sh with
    | node r kids =>
      have hroot' : t.root? = some r := hroot
      rcases hheap : t.heap r with _ | d
      · simp [decodeB, hheap] at hdec
      · have hch : d.children = kids.map Shape.top ∧ decodeF t.heap kids = true := by
          simpa [decodeB, hheap] using hdec
        rw [NaryTreeSt.add, if_neg hsz] at h
        simp only [hroot', hheap, Except.ok.injEq] at h
        subst h
        apply inv_of_shape
          (Shape.setKids r (kids ++ Shape.node t.next [] :: []) (Shape.node r kids))
        have hattach := attach_inv t (Shape.node r kids) r kids kids [] d v
          ⟨hroot, hdec, hnd, hbound, hsize⟩ (by simp [Shape.kidsAt?]) (by simp) hheap
        rw [show d.children ++ [t.next]
            = kids.map Shape.top ++ t.next :: ([] : List Shape).map Shape.top from by
          rw [hch.1]; rfl]
        rw [← hroot']
        exact hattach

/-- `addAsFirstChild` at an in-tree parent preserves the invariant. -/
theorem addAsFirstChild_inv {α : Type} (t t' : NaryTreeSt α) (v : α) (p : NodeId)
    (sh : Shape) (hsh : IsShapeOf t sh) (hp : p ∈ sh.ids)
    (h : t.addAsFirstChild v p = .ok t') : Inv t' := by
  obtain ⟨ks, hks⟩ := kidsAt_exists p sh hp
  obtain ⟨d2, hd2, hch, hdecks⟩ := kidsAt_decode t.heap p ks sh hsh.2.1 hks
  rw [NaryTreeSt.addAsFirstChild] at h
  simp only [hd2, Except.ok.injEq] at h
  subst h
  apply inv_of_shape (Shape.setKids p ([] ++ Shape.node t.next [] :: ks) sh)
  have hattach := attach_inv t sh p ks [] ks d2 v hsh hks (by simp) hd2
  rw [show t.next :: d2.children
      = ([] : List Shape).map Shape.top ++ t.next :: ks.map Shape.top from by
    rw [hch]; rfl]
  exact hattach

/-- `addAsLastChild` at an in-tree parent preserves the invariant. -/
theorem addAsLastChild_inv {α : Type} (t t' : NaryTreeSt α) (v : α) (p : NodeId)
    (sh : Shape) (hsh : IsShapeOf t sh) (hp : p ∈ sh.ids)
    (h : t.addAsLastChild v p = .ok t') : Inv t' := by
  obtain ⟨ks, hks⟩ := kidsAt_exists p sh hp
  obtain ⟨d2, hd2, hch, hdecks⟩ := kidsAt_decode t.heap p ks sh hsh.2.1 hks
  rw [NaryTreeSt.addAsLastChild] at h
  simp only [hd2, Except.ok.injEq] at h
  subst h
  apply inv_of_shape (Shape.setKids p (ks ++ Shape.node t.next [] :: []) sh)
  have hattach := attach_inv t sh p ks ks [] d2 v hsh hks (by simp) hd2
  rw [show d2.children ++ [t.next]
      = ks.map Shape.top ++ t.next :: ([] : List Shape).map Shape.top from by
    rw [hch]; rfl]
  exact hattach

/-- `addAtPosition` at an in-tree parent preserves the invariant (out-of-range
positions raise and are covered vacuously). -/
theorem addAtPosition_inv {α : Type} (t t' : NaryTreeSt α) (v : α) (p : NodeId)
    (pos : Int) (sh : Shape) (hsh : IsShapeOf t sh) (hp : p ∈ sh.ids)
    (h : t.addAtPosition v p pos = .ok t') : Inv t' := by
  obtain ⟨ks, hks⟩ := kidsAt_exists p sh hp
  obtain ⟨d2, hd2, hch, hdecks⟩ := kidsAt_decode t.heap p ks sh hsh.2.1 hks
  rw [NaryTreeSt.addAtPosition] at h
  simp only [hd2] at h
  by_cases hrange : pos < 0 ∨ pos > (d2.children.length : Int)
  · rw [if_pos hrange] at h
    simp at h
  · rw [if_neg hrange] at h
    rw [Except.ok.injEq] at h
    subst h
    apply inv_of_shape
      (Shape.setKids p (ks.take pos.toNat ++ Shape.node t.next [] :: ks.drop pos.toNat) sh)
    have hattach := attach_inv t sh p ks (ks.take pos.toNat) (ks.drop pos.toNat) d2 v
      hsh hks (List.take_append_drop _ _).symm hd2
    rw [show d2.children.take pos.toNat ++ t.next :: d2.children.drop pos.toNat
        = (ks.take pos.toNat).map Shape.top ++ t.next :: (ks.drop pos.toNat).map Shape.top from by
      rw [hch, List.map_take, List.map_drop]]
    exact hattach

/-- The splice loop over a forest that contains the target nowhere walks to
exhaustion without mutating anything. -/
theorem spliceLoop_miss {α : Type} [DecidableEq α] (bubble : Bool) (target : NodeId) :
    ∀ (fuel : Nat) (shs : List Shape) (s : LevelIterSt) (t : NaryTreeSt α),
      decodeF t.heap shs = true →
      (match s.pending with
       | none => s.queue
       | some p => s.queue ++ NaryTreeSt.childrenOf t.heap p) = shs.map Shape.top →
      target ∉ Shape.idsF shs →
      (Shape.idsF shs).length < fuel →
      NaryTreeSt.spliceLoop bubble target fuel s t = .ok t := by
  intro fuel
  induction fuel with
  | zero => intro shs s t _ _ _ hlt; omega
  | succ f ih =>
    intro shs s t hdec hq htgt hlt
    have hnext : levelIterNext t.heap s =
        (match shs.map Shape.top with
         | [] => .ok none
         | n :: rest => .ok (some (n, ⟨rest, some n⟩))) := by
      rw [levelIterNext]
      rw [show (match s.pending with
          | none => s.queue
          | some p => s.queue ++ NaryTreeSt.childrenOf t.heap p) = shs.map Shape.top from hq]
    cases shs with
    | nil =>
      rw [NaryTreeSt.spliceLoop, hnext]
      simp
    | cons s0 rest =>
      obtain ⟨n, kids⟩ := s0
      have hdecs : decodeB t.heap (.node n kids) = true ∧ decodeF t.heap rest = true := by
        simpa [decodeF] using hdec
      rcases hmatch : t.heap n with _ | d
      · simp [decodeB, hmatch] at hdecs
      · have hch : d.children = kids.map Shape.top ∧ decodeF t.heap kids = true := by
          have := hdecs.1
          simpa [decodeB, hmatch] using this
        have htop : (Shape.node n kids :: rest).map Shape.top
            = n :: rest.map Shape.top := by simp [Shape.top]
        have hids : Shape.idsF (Shape.node n kids :: rest)
            = n :: (Shape.idsF kids ++ Shape.idsF rest) := by
          simp [Shape.idsF, Shape.ids]
        have hqueue : (match (some n : Option NodeId) with
            | none => rest.map Shape.top
            | some p => rest.map Shape.top ++ NaryTreeSt.childrenOf t.heap p)
            = (rest ++ kids).map Shape.top := by
          simp [NaryTreeSt.childrenOf, hmatch, hch.1]
        have hdec2 : decodeF t.heap (rest ++ kids) = true := by
          rw [decodeF_append, hdecs.2, hch.2]
          rfl
        have hnotin : target ∉ Shape.idsF (rest ++ kids) := by
          rw [Shape.idsF_append]
          intro hx
          apply htgt
          rw [hids]
          rcases List.mem_append.mp hx with hr | hk
          · simp [hr]
          · simp [hk]
        have hnotchild : target ∉ d.children := by
          rw [hch.1]
          intro hx
          apply htgt
          rw [hids]
          simp [tops_sub_idsF kids target hx]
        have hlen : (Shape.idsF (rest ++ kids)).length < f := by
          rw [Shape.idsF_append]
          rw [hids] at hlt
          simp only [List.length_append, List.length_cons] at hlt ⊢
          omega
        rw [NaryTreeSt.spliceLoop, hnext, htop]
        simp only [hmatch, hnotchild, ite_false]
        exact ih (rest ++ kids) ⟨rest.map Shape.top, some n⟩ t hdec2 hqueue hnotin hlen

/-- The splice loop over a forest that contains the target below exactly one
parent (ids distinct, target not a forest root) performs exactly one splice:
at the parent `p` whose child list contains the target, the target is removed
(and in bubble mode its children are appended), `_size` drops by one, and the
rest of the walk changes nothing. -/
theorem spliceLoop_splices {α : Type} [DecidableEq α] (bubble : Bool) (target : NodeId) :
    ∀ (fuel : Nat) (shs : List Shape) (s : LevelIterSt) (t : NaryTreeSt α),
      decodeF t.heap shs = true →
      (match s.pending with
       | none => s.queue
       | some p => s.queue ++ NaryTreeSt.childrenOf t.heap p) = shs.map Shape.top →
      (Shape.idsF shs).Nodup →
      target ∈ Shape.idsF shs →
      target ∉ shs.map Shape.top →
      (Shape.idsF shs).length < fuel →
      ∃ (p : NodeId) (dp : NodeData α) (a b tk : List Shape),
        t.heap p = some dp ∧
        Shape.kidsAtF? p shs = some (a ++ Shape.node target tk :: b) ∧
        NaryTreeSt.spliceLoop bubble target fuel s t = .ok
          { heap := t.heap.set p ⟨dp.value,
              if bubble
              then (a.map Shape.top ++ b.map Shape.top) ++ tk.map Shape.top
              else a.map Shape.top ++ b.map Shape.top⟩,
            next := t.next, root? := t.root?,
            size := t.size - 1, modCount := t.modCount + 1 } := by
  intro fuel
  induction fuel with
  | zero => intro shs s t _ _ _ _ _ hlt; omega
  | succ f ih =>
    intro shs s t hdec hq hnd hmem hts hlt
    have hnext : levelIterNext t.heap s =
        (match shs.map Shape.top with
         | [] => .ok none
         | n :: rest => .ok (some (n, ⟨rest, some n⟩))) := by
      rw [levelIterNext]
      rw [show (match s.pending with
          | none => s.queue
          | some p => s.queue ++ NaryTreeSt.childrenOf t.heap p) = shs.map Shape.top from hq]
    cases shs with
    | nil => simp [Shape.idsF] at hmem
    | cons s0 rest =>
      obtain ⟨n, kids⟩ := s0
      have hdecs : decodeB t.heap (.node n kids) = true ∧ decodeF t.heap rest = true := by
        simpa [decodeF] using hdec
      rcases hmatch : t.heap n with _ | d
      · simp [decodeB, hmatch] at hdecs
      · have hch : d.children = kids.map Shape.top ∧ decodeF t.heap kids = true := by
          have := hdecs.1
          simpa [decodeB, hmatch] using this
        have htop : (Shape.node n kids :: rest).map Shape.top
            = n :: rest.map Shape.top := by simp [Shape.top]
        have hids : Shape.idsF (Shape.node n kids :: rest)
            = n :: (Shape.idsF kids ++ Shape.idsF rest) := by
          simp [Shape.idsF, Shape.ids]
        have hndc : (n :: (Shape.idsF kids ++ Shape.idsF rest)).Nodup := by
          rw [hids] at hnd
          exact hnd
        have hn_notin : n ∉ Shape.idsF kids ++ Shape.idsF rest :=
          (List.nodup_cons.mp hndc).1
        have hn_kids : n ∉ Shape.idsF kids := fun h => hn_notin (List.mem_append.mpr (Or.inl h))
        have hn_rest : n ∉ Shape.idsF rest := fun h => hn_notin (List.mem_append.mpr (Or.inr h))
        have hkr_nd : (Shape.idsF kids ++ Shape.idsF rest).Nodup :=
          (List.nodup_cons.mp hndc).2
        have htn : target ≠ n := by
          intro e
          apply hts
          rw [htop, e]
          exact List.mem_cons_self _ _
        have hmem' : target ∈ Shape.idsF kids ++ Shape.idsF rest := by
          rw [hids] at hmem
          rcases List.mem_cons.mp hmem with h | h
          · exact absurd h htn
          · exact h
        have htrest : target ∉ rest.map Shape.top := by
          intro h
          apply hts
          rw [htop]
          exact List.mem_cons_of_mem _ h
        have hqueue : (match (some n : Option NodeId) with
            | none => rest.map Shape.top
            | some p => rest.map Shape.top ++ NaryTreeSt.childrenOf t.heap p)
            = (rest ++ kids).map Shape.top := by
          simp [NaryTreeSt.childrenOf, hmatch, hch.1]
        by_cases hin : target ∈ kids.map Shape.top
        · -- the current node is the parent: splice here, then walk to exhaustion
          obtain ⟨a, tsh, b, hkeq, htop', hnota⟩ := exists_first_top_split target kids hin
          cases tsh with
          | node t0 tk =>
            have ht0 : t0 = target := htop'
            rw [ht0] at hkeq
            have hparts : decodeF t.heap a = true ∧
                decodeB t.heap (Shape.node target tk) = true ∧
                decodeF t.heap b = true := by
              have h2 := hch.2
              rw [hkeq, decodeF_append] at h2
              simp only [decodeF, Bool.and_eq_true] at h2
              exact ⟨h2.1, h2.2.1, h2.2.2⟩
            rcases htd : t.heap target with _ | td
            · simp [decodeB, htd] at hparts
            · have htdch : td.children = tk.map Shape.top ∧ decodeF t.heap tk = true := by
                have := hparts.2.1
                simpa [decodeB, htd] using this
              have hdch : d.children = a.map Shape.top ++ target :: b.map Shape.top := by
                rw [hch.1, hkeq]
                simp [Shape.top]
              have hsplice : d.children.eraseIdx (d.children.indexOf target)
                  = a.map Shape.top ++ b.map Shape.top := by
                rw [hdch]
                exact eraseIdx_indexOf_append _ _ _ hnota
              have hcot : NaryTreeSt.childrenOf t.heap target = tk.map Shape.top := by
                simp [NaryTreeSt.childrenOf, htd, htdch.1]
              have hmem_d : target ∈ d.children := by
                rw [hdch]
                simp
              have hkidsids : Shape.idsF kids
                  = Shape.idsF a ++ target :: (Shape.idsF tk ++ Shape.idsF b) := by
                rw [hkeq, Shape.idsF_append]
                rfl
              have hknd : (Shape.idsF kids).Nodup :=
                ((List.nodup_append.mp hkr_nd).1)
              have hknd2 : (target :: (Shape.idsF a ++ (Shape.idsF tk ++ Shape.idsF b))).Nodup := by
                rw [hkidsids] at hknd
                exact List.perm_middle.nodup hknd
              have htnot3 : target ∉ Shape.idsF a ++ (Shape.idsF tk ++ Shape.idsF b) :=
                (List.nodup_cons.mp hknd2).1
              have htka : target ∉ Shape.idsF a := fun h =>
                htnot3 (List.mem_append.mpr (Or.inl h))
              have htktk : target ∉ Shape.idsF tk := fun h =>
                htnot3 (List.mem_append.mpr (Or.inr (List.mem_append.mpr (Or.inl h))))
              have htkb : target ∉ Shape.idsF b := fun h =>
                htnot3 (List.mem_append.mpr (Or.inr (List.mem_append.mpr (Or.inr h))))
              have htkids : target ∈ Shape.idsF kids := by
                rw [hkidsids]
                simp
              have htrest2 : target ∉ Shape.idsF rest :=
                (List.nodup_append.mp hkr_nd).2.2 htkids
              -- the forest that remains after the splice
              have htk'sub : ∀ q ∈ Shape.idsF (if bubble then tk else []),
                  q ∈ Shape.idsF tk := by
                cases bubble
                · intro q hq
                  simp [Shape.idsF] at hq
                · intro q hq
                  simpa using hq
              have hdectk' : decodeF t.heap (if bubble then tk else []) = true := by
                cases bubble
                · rfl
                · exact htdch.2
              have htk'len : (Shape.idsF (if bubble then tk else [])).length
                  ≤ (Shape.idsF tk).length := by
                cases bubble
                · simp [Shape.idsF]
                · simp
              have hsubn : ∀ q ∈ Shape.idsF ((a ++ b) ++ (if bubble then tk else [])),
                  q ∈ Shape.idsF kids := by
                intro q hq
                rw [Shape.idsF_append, Shape.idsF_append] at hq
                rw [hkidsids]
                rcases List.mem_append.mp hq with h | h
                · rcases List.mem_append.mp h with h1 | h1
                  · exact List.mem_append.mpr (Or.inl h1)
                  · exact List.mem_append.mpr (Or.inr (List.mem_cons_of_mem _
                      (List.mem_append.mpr (Or.inr h1))))
                · exact List.mem_append.mpr (Or.inr (List.mem_cons_of_mem _
                    (List.mem_append.mpr (Or.inl (htk'sub q h)))))
              have hnn_rk : n ∉ Shape.idsF (rest ++ (a ++ b) ++ (if bubble then tk else [])) := by
                intro hx
                rw [Shape.idsF_append, Shape.idsF_append] at hx
                rcases List.mem_append.mp hx with h | h
                · rcases List.mem_append.mp h with h1 | h1
                  · exact hn_rest h1
                  · exact hn_kids (hsubn n (by
                      rw [Shape.idsF_append]
                      exact List.mem_append.mpr (Or.inl h1)))
                · exact hn_kids (hsubn n (by
                    rw [Shape.idsF_append]
                    exact List.mem_append.mpr (Or.inr h)))
              have htgt_rk : target ∉ Shape.idsF (rest ++ (a ++ b) ++ (if bubble then tk else [])) := by
                intro hx
                rw [Shape.idsF_append, Shape.idsF_append] at hx
                rcases List.mem_append.mp hx with h | h
                · rcases List.mem_append.mp h with h1 | h1
                  · exact htrest2 h1
                  · rw [Shape.idsF_append] at h1
                    rcases List.mem_append.mp h1 with h2 | h2
                    · exact htka h2
                    · exact htkb h2
                · exact htktk (htk'sub target h)
              have hdecnew : decodeF t.heap (rest ++ (a ++ b) ++ (if bubble then tk else [])) = true := by
                rw [decodeF_append, decodeF_append, decodeF_append]
                simp only [Bool.and_eq_true]
                exact ⟨⟨hdecs.2, hparts.1, hparts.2.2⟩, hdectk'⟩
              -- the mutated state
              have hclmap : (if bubble
                    then (a.map Shape.top ++ b.map Shape.top) ++ tk.map Shape.top
                    else a.map Shape.top ++ b.map Shape.top)
                  = ((a ++ b) ++ (if bubble then tk else [])).map Shape.top := by
                cases bubble <;> simp
              refine ⟨n, d, a, b, tk, hmatch, ?_, ?_⟩
              · rw [show Shape.kidsAtF? n (Shape.node n kids :: rest) = some kids from by
                  simp [Shape.kidsAtF?, Shape.kidsAt?]]
                rw [hkeq]
              · rw [NaryTreeSt.spliceLoop, hnext, htop]
                simp only [hmatch, hmem_d, ite_true, hsplice, hcot]
                -- remaining walk over the mutated heap changes nothing
                refine spliceLoop_miss bubble target f
                  (rest ++ (a ++ b) ++ (if bubble then tk else []))
                  ⟨rest.map Shape.top, some n⟩ _ ?_ ?_ ?_ ?_
                · show decodeF ((t.heap.set n _) : Heap α) _ = true
                  rw [decodeF_set_frame _ _ _ _ hnn_rk]
                  exact hdecnew
                · show rest.map Shape.top ++ NaryTreeSt.childrenOf (t.heap.set n _) n = _
                  rw [show NaryTreeSt.childrenOf (t.heap.set n
                      ⟨d.value, if bubble
                        then (a.map Shape.top ++ b.map Shape.top) ++ tk.map Shape.top
                        else a.map Shape.top ++ b.map Shape.top⟩) n
                      = (if bubble
                        then (a.map Shape.top ++ b.map Shape.top) ++ tk.map Shape.top
                        else a.map Shape.top ++ b.map Shape.top) from by
                    simp [NaryTreeSt.childrenOf, Heap.set_same]]
                  rw [hclmap]
                  simp [List.map_append, List.append_assoc]
                · exact htgt_rk
                · rw [Shape.idsF_append, Shape.idsF_append, Shape.idsF_append]
                  have hKlen : (Shape.idsF kids).length
                      = (Shape.idsF a).length
                        + (1 + ((Shape.idsF tk).length + (Shape.idsF b).length)) := by
                    rw [hkidsids]
                    simp only [List.length_append, List.length_cons]
                    omega
                  rw [hids] at hlt
                  simp only [List.length_append, List.length_cons] at hlt ⊢
                  omega
        · -- the target is deeper: no splice at this node, recurse
          have hnotchild : target ∉ d.children := by
            rw [hch.1]
            exact hin
          have hdec2 : decodeF t.heap (rest ++ kids) = true := by
            rw [decodeF_append, hdecs.2, hch.2]
            rfl
          have hnd2 : (Shape.idsF (rest ++ kids)).Nodup := by
            rw [Shape.idsF_append]
            exact (List.perm_append_comm).nodup hkr_nd
          have hmem2 : target ∈ Shape.idsF (rest ++ kids) := by
            rw [Shape.idsF_append]
            rcases List.mem_append.mp hmem' with h | h
            · exact List.mem_append.mpr (Or.inr h)
            · exact List.mem_append.mpr (Or.inl h)
          have hnt2 : target ∉ (rest ++ kids).map Shape.top := by
            rw [List.map_append]
            intro hx
            rcases List.mem_append.mp hx with h | h
            · exact htrest h
            · exact hin h
          have hlen2 : (Shape.idsF (rest ++ kids)).length < f := by
            rw [Shape.idsF_append]
            rw [hids] at hlt
            simp only [List.length_append, List.length_cons] at hlt ⊢
            omega
          obtain ⟨p, dp, a, b, tk, hdp, hkf, hrun⟩ :=
            ih (rest ++ kids) ⟨rest.map Shape.top, some n⟩ t hdec2 hqueue hnd2 hmem2 hnt2 hlen2
          have hpmem : p ∈ Shape.idsF (rest ++ kids) := kidsAtF_some_mem p _ _ hkf
          have hpn : p ≠ n := by
            intro e
            subst e
            rw [Shape.idsF_append] at hpmem
            rcases List.mem_append.mp hpmem with h | h
            · exact hn_rest h
            · exact hn_kids h
          have hkshs : Shape.kidsAtF? p (Shape.node n kids :: rest)
              = some (a ++ Shape.node target tk :: b) := by
            rw [Shape.kidsAtF?, Shape.kidsAt?, if_neg (fun e => hpn e.symm)]
            rw [kidsAtF_append] at hkf
            rcases hr1 : Shape.kidsAtF? p rest with _ | r
            · rw [hr1] at hkf
              have hkf' : Shape.kidsAtF? p kids
                  = some (a ++ Shape.node target tk :: b) := hkf
              rw [hkf']
            · rw [hr1] at hkf
              have hkf' : (some r : Option (List Shape))
                  = some (a ++ Shape.node target tk :: b) := hkf
              rcases hk1 : Shape.kidsAtF? p kids with _ | r2
              · exact hkf'
              · exfalso
                have h1 := kidsAtF_some_mem p r2 kids hk1
                have h2 := kidsAtF_some_mem p r rest hr1
                exact (List.nodup_append.mp hkr_nd).2.2 h1 h2
          refine ⟨p, dp, a, b, tk, hdp, hkshs, ?_⟩
          rw [NaryTreeSt.spliceLoop, hnext, htop]
          simp only [hmatch, hnotchild, ite_false]
          exact hrun

/-- Replacing the child list of an in-tree parent `p` by the spliced list —
the target child removed and (in bubble mode) its children appended — yields a
well-formed tree again, with one node fewer. -/
theorem splice_shape_inv {α : Type} (t : NaryTreeSt α) (sh : Shape) (p target : NodeId)
    (dp : NodeData α) (a b tk : List Shape)
    (hsh : IsShapeOf t sh) (hdp : t.heap p = some dp)
    (hks : Shape.kidsAt? p sh = some (a ++ Shape.node target tk :: b))
    (cl : List NodeId)
    (hcl : cl = (a.map Shape.top ++ b.map Shape.top) ++ tk.map Shape.top) :
    IsShapeOf
      { heap := t.heap.set p ⟨dp.value, cl⟩,
        next := t.next, root? := t.root?,
        size := t.size - 1, modCount := t.modCount + 1 }
      (Shape.setKids p ((a ++ b) ++ tk) sh) := by
  obtain ⟨hroot, hdec, hnd, hbound, hsize⟩ := hsh
  obtain ⟨hsubnd, hsubmem⟩ := kidsAt_sub_nodup p (a ++ Shape.node target tk :: b) sh hnd hks
  have hpmem : p ∈ sh.ids := kidsAt_some_mem p _ sh hks
  have hknotp : p ∉ Shape.idsF (a ++ Shape.node target tk :: b) :=
    (List.nodup_cons.mp hsubnd).1
  obtain ⟨d2, hd2, hch2, hdecks⟩ := kidsAt_decode t.heap p _ sh hdec hks
  have hdd : dp = d2 := by
    rw [hdp] at hd2
    exact Option.some.inj hd2
  subst hdd
  have hparts : decodeF t.heap a = true ∧
      decodeB t.heap (Shape.node target tk) = true ∧ decodeF t.heap b = true := by
    have h0 := hdecks
    rw [decodeF_append] at h0
    simp only [decodeF, Bool.and_eq_true] at h0
    exact ⟨h0.1, h0.2.1, h0.2.2⟩
  have hdectk : decodeF t.heap tk = true := by
    have h0 := hparts.2.1
    rcases htd : t.heap target with _ | td
    · simp [decodeB, htd] at h0
    · have h2 : td.children = tk.map Shape.top ∧ decodeF t.heap tk = true := by
        simpa [decodeB, htd] using h0
      exact h2.2
  have hksids : Shape.idsF (a ++ Shape.node target tk :: b)
      = Shape.idsF a ++ target :: (Shape.idsF tk ++ Shape.idsF b) := by
    rw [Shape.idsF_append]
    rfl
  have hnewids : Shape.idsF ((a ++ b) ++ tk)
      = (Shape.idsF a ++ Shape.idsF b) ++ Shape.idsF tk := by
    rw [Shape.idsF_append, Shape.idsF_append]
  have hidsub : ∀ q ∈ Shape.idsF ((a ++ b) ++ tk),
      q ∈ Shape.idsF (a ++ Shape.node target tk :: b) := by
    intro q hq
    rw [hnewids] at hq
    rw [hksids]
    rcases List.mem_append.mp hq with h | h
    · rcases List.mem_append.mp h with h1 | h1
      · exact List.mem_append.mpr (Or.inl h1)
      · exact List.mem_append.mpr (Or.inr (List.mem_cons_of_mem _
          (List.mem_append.mpr (Or.inr h1))))
    · exact List.mem_append.mpr (Or.inr (List.mem_cons_of_mem _
        (List.mem_append.mpr (Or.inl h))))
  have hpnew : p ∉ Shape.idsF ((a ++ b) ++ tk) := fun h => hknotp (hidsub p h)
  have hframe : ∀ q ∈ sh.ids, q ≠ p →
      (t.heap.set p ⟨dp.value, cl⟩) q = t.heap q := by
    intro q _ hqp
    rw [Heap.set_other _ _ _ _ hqp]
  have hmaptops : ((a ++ b) ++ tk).map Shape.top
      = (a.map Shape.top ++ b.map Shape.top) ++ tk.map Shape.top := by
    simp
  have hp' : (t.heap.set p ⟨dp.value, cl⟩) p
      = some ⟨dp.value, ((a ++ b) ++ tk).map Shape.top⟩ := by
    rw [Heap.set_same, hcl, hmaptops]
  have hnewdec : decodeF (t.heap.set p ⟨dp.value, cl⟩) ((a ++ b) ++ tk) = true := by
    rw [decodeF_set_frame _ _ _ _ hpnew, decodeF_append, decodeF_append]
    simp only [Bool.and_eq_true]
    exact ⟨⟨hparts.1, hparts.2.2⟩, hdectk⟩
  have hdec' : decodeB (t.heap.set p ⟨dp.value, cl⟩)
      (Shape.setKids p ((a ++ b) ++ tk) sh) = true :=
    decode_setKids t.heap _ p _ ⟨dp.value, hp'⟩ hnewdec sh hframe hdec
  have hmult := ids_setKids_multiset p ((a ++ b) ++ tk)
    (a ++ Shape.node target tk :: b) sh hnd hks
  have e2 : (↑(Shape.idsF (a ++ Shape.node target tk :: b)) : Multiset NodeId)
      = ↑(Shape.idsF ((a ++ b) ++ tk)) + {target} := by
    rw [hksids, hnewids]
    simp only [← Multiset.coe_add, ← Multiset.cons_coe, ← Multiset.singleton_add]
    abel
  have hm2 : (↑(Shape.setKids p ((a ++ b) ++ tk) sh).ids : Multiset NodeId) + {target}
      = ↑sh.ids := by
    have h3 : ((↑(Shape.setKids p ((a ++ b) ++ tk) sh).ids : Multiset NodeId) + {target})
        + ↑(Shape.idsF ((a ++ b) ++ tk))
        = ↑sh.ids + ↑(Shape.idsF ((a ++ b) ++ tk)) := by
      rw [← hmult, e2]
      abel
    exact add_right_cancel h3
  have hle : (↑(Shape.setKids p ((a ++ b) ++ tk) sh).ids : Multiset NodeId) ≤ ↑sh.ids := by
    rw [← hm2]
    exact le_self_add
  have hnd' : (Shape.setKids p ((a ++ b) ++ tk) sh).ids.Nodup :=
    Multiset.coe_nodup.mp (Multiset.nodup_of_le hle (Multiset.coe_nodup.mpr hnd))
  have hmemsub : ∀ q ∈ (Shape.setKids p ((a ++ b) ++ tk) sh).ids, q ∈ sh.ids := by
    intro q hq
    exact Multiset.mem_coe.mp (Multiset.mem_of_le hle (Multiset.mem_coe.mpr hq))
  have hlen : (Shape.setKids p ((a ++ b) ++ tk) sh).ids.length + 1 = sh.ids.length := by
    have h0 := congrArg Multiset.card hm2
    simpa using h0
  refine ⟨?_, hdec', hnd', ?_, ?_⟩
  · show t.root? = some (Shape.setKids p ((a ++ b) ++ tk) sh).top
    rw [Shape.top_setKids]
    exact hroot
  · intro i hi
    exact hbound i (hmemsub i hi)
  · show t.size - 1 = (Shape.setKids p ((a ++ b) ++ tk) sh).ids.length
    omega

/-- The no-argument `remove()` (root promotion) preserves the invariant. -/
theorem removeRootPromote_inv {α : Type} (t t' : NaryTreeSt α) (sh : Shape)
    (hsh : IsShapeOf t sh) (h : NaryTreeSt.removeRootPromote t = .ok t') : Inv t' := by
  obtain ⟨hroot, hdec, hnd, hbound, hsize⟩ := hsh
  cases sh with
  | node r kids =>
    have hroot' : t.root? = some r := hroot
    rcases hheap : t.heap r with _ | d
    · simp [decodeB, hheap] at hdec
    · have hch : d.children = kids.map Shape.top ∧ decodeF t.heap kids = true := by
        simpa [decodeB, hheap] using hdec
      rw [NaryTreeSt.removeRootPromote] at h
      simp only [hroot', hheap] at h
      cases kids with
      | nil =>
        rw [show d.children = [] from by rw [hch.1]; rfl] at h
        have h2 : Except.ok t.clear = Except.ok t' := h
        injection h2 with h2
        subst h2
        exact inv_clear t
      | cons k ks' =>
        cases k with
        | node c ckids =>
          have hdch : d.children = c :: ks'.map Shape.top := by
            rw [hch.1]
            rfl
          rw [hdch] at h
          have hidseq : (Shape.node r (Shape.node c ckids :: ks')).ids
              = r :: c :: (Shape.idsF ckids ++ Shape.idsF ks') := rfl
          have hnd2 : (r :: c :: (Shape.idsF ckids ++ Shape.idsF ks')).Nodup := by
            rw [hidseq] at hnd
            exact hnd
          have hrnot : r ∉ c :: (Shape.idsF ckids ++ Shape.idsF ks') :=
            (List.nodup_cons.mp hnd2).1
          have hnd3 : (c :: (Shape.idsF ckids ++ Shape.idsF ks')).Nodup :=
            (List.nodup_cons.mp hnd2).2
          have hcnot : c ∉ Shape.idsF ckids ++ Shape.idsF ks' :=
            (List.nodup_cons.mp hnd3).1
          have hcr : c ≠ r := by
            intro e
            exact hrnot (by rw [← e]; exact List.mem_cons_self _ _)
          have hdkids : decodeB t.heap (Shape.node c ckids) = true ∧
              decodeF t.heap ks' = true := by
            have h0 := hch.2
            simp only [decodeF, Bool.and_eq_true] at h0
            exact h0
          rcases hcd : t.heap c with _ | cd
          · simp [decodeB, hcd] at hdkids
          · have hcdch : cd.children = ckids.map Shape.top ∧ decodeF t.heap ckids = true := by
              have h0 := hdkids.1
              simpa [decodeB, hcd] using h0
            have hc1 : (t.heap.set r ⟨d.value, ks'.map Shape.top⟩) c = some cd := by
              rw [Heap.set_other _ _ _ _ hcr, hcd]
            simp only [hc1, Except.ok.injEq] at h
            subst h
            apply inv_of_shape (Shape.node c (ckids ++ ks'))
            have hcnotin : c ∉ Shape.idsF (ckids ++ ks') := by
              rw [Shape.idsF_append]
              exact hcnot
            have hrnotin : r ∉ Shape.idsF (ckids ++ ks') := by
              rw [Shape.idsF_append]
              intro hx
              exact hrnot (List.mem_cons_of_mem _ hx)
            have hids' : (Shape.node c (ckids ++ ks')).ids
                = c :: (Shape.idsF ckids ++ Shape.idsF ks') := by
              show c :: Shape.idsF (ckids ++ ks') = _
              rw [Shape.idsF_append]
            have hsubdec : decodeF ((t.heap.set r ⟨d.value, ks'.map Shape.top⟩).set c
                ⟨cd.value, cd.children ++ ks'.map Shape.top⟩) (ckids ++ ks') = true := by
              rw [decodeF_set_frame _ _ _ _ hcnotin, decodeF_set_frame _ _ _ _ hrnotin,
                decodeF_append]
              simp [hcdch.2, hdkids.2]
            rw [hcdch.1] at hsubdec
            refine ⟨rfl, ?_, ?_, ?_, ?_⟩
            · simp [decodeB, Heap.set_same, hsubdec, hcdch.1]
            · rw [hids']
              exact hnd3
            · intro i hi
              rw [hids'] at hi
              exact hbound i (by rw [hidseq]; exact List.mem_cons_of_mem _ hi)
            · show t.size - 1 = (Shape.node c (ckids ++ ks')).ids.length
              have hlen1 : t.size = (Shape.idsF ckids ++ Shape.idsF ks').length + 2 := by
                rw [hsize, hidseq]
                simp
              have hlen2 : (Shape.node c (ckids ++ ks')).ids.length
                  = (Shape.idsF ckids ++ Shape.idsF ks').length + 1 := by
                rw [hids']
                simp
              omega

/-- Once `remove` has located an in-tree target node, every branch (root
promotion, childless splice, bubbling splice) preserves the invariant. -/
theorem remove_found_inv {α : Type} [DecidableEq α] (t t' : NaryTreeSt α) (sh : Shape)
    (x : NodeId) (hsh : IsShapeOf t sh) (hx : x ∈ sh.ids)
    (h : (if t.root? = some x then NaryTreeSt.removeRootPromote t
          else if (NaryTreeSt.childrenOf t.heap x).isEmpty then
            NaryTreeSt.spliceLoop false x (t.size + 1) (levelIterStart t.root?) t
          else NaryTreeSt.spliceLoop true x (t.size + 1) (levelIterStart t.root?) t)
        = .ok t') :
    Inv t' := by
  by_cases hroot : t.root? = some x
  · rw [if_pos hroot] at h
    exact removeRootPromote_inv t t' sh hsh h
  · rw [if_neg hroot] at h
    have hxtop : x ∉ [sh].map Shape.top := by
      intro hmem
      rcases List.mem_cons.mp (by simpa using hmem : x ∈ [sh.top]) with e | e
      · exact hroot (by rw [e]; exact hsh.1)
      · simp at e
    have hdecF : decodeF t.heap [sh] = true := by
      simp [decodeF, hsh.2.1]
    have hq : (match (levelIterStart t.root?).pending with
        | none => (levelIterStart t.root?).queue
        | some p => (levelIterStart t.root?).queue ++ NaryTreeSt.childrenOf t.heap p)
        = [sh].map Shape.top := by
      rw [hsh.1]
      simp [levelIterStart]
    have hids1 : Shape.idsF [sh] = sh.ids := by
      simp [Shape.idsF]
    have hnd1 : (Shape.idsF [sh]).Nodup := by
      rw [hids1]
      exact hsh.2.2.1
    have hmem1 : x ∈ Shape.idsF [sh] := by
      rw [hids1]
      exact hx
    have hlen1 : (Shape.idsF [sh]).length < t.size + 1 := by
      rw [hids1, hsh.2.2.2.2]
      omega
    by_cases hemp : (NaryTreeSt.childrenOf t.heap x).isEmpty
    · rw [if_pos hemp] at h
      obtain ⟨p, dp, a, b, tk, hdp, hkf, hrun⟩ :=
        spliceLoop_splices false x (t.size + 1) [sh] (levelIterStart t.root?) t
          hdecF hq hnd1 hmem1 hxtop hlen1
      have hkat : Shape.kidsAt? p sh = some (a ++ Shape.node x tk :: b) := by
        rw [Shape.kidsAtF?] at hkf
        rcases hk1 : Shape.kidsAt? p sh with _ | r
        · rw [hk1] at hkf
          have hkf' : (none : Option (List Shape))
              = some (a ++ Shape.node x tk :: b) := hkf
          simp at hkf'
        · rw [hk1] at hkf
          exact hkf
      have htkempty : tk = [] := by
        obtain ⟨d2, hd2, hch2, hdecks2⟩ := kidsAt_decode t.heap p _ sh hsh.2.1 hkat
        have hxdec : decodeB t.heap (Shape.node x tk) = true := by
          have h0 := hdecks2
          rw [decodeF_append] at h0
          simp only [decodeF, Bool.and_eq_true] at h0
          exact h0.2.1
        rcases htd : t.heap x with _ | td
        · simp [decodeB, htd] at hxdec
        · have htdch : td.children = tk.map Shape.top := by
            have := hxdec
            simp only [decodeB, htd, Bool.and_eq_true, decide_eq_true_eq] at this
            exact this.1
          have hco : NaryTreeSt.childrenOf t.heap x = tk.map Shape.top := by
            simp [NaryTreeSt.childrenOf, htd, htdch]
          rw [hco] at hemp
          have : tk.map Shape.top = [] := by
            simpa [List.isEmpty_iff] using hemp
          exact List.map_eq_nil_iff.mp this
      rw [hrun, Except.ok.injEq] at h
      subst h
      apply inv_of_shape (Shape.setKids p ((a ++ b) ++ tk) sh)
      refine splice_shape_inv t sh p x dp a b tk hsh hdp hkat _ ?_
      rw [htkempty]
      simp
    · rw [if_neg hemp] at h
      obtain ⟨p, dp, a, b, tk, hdp, hkf, hrun⟩ :=
        spliceLoop_splices true x (t.size + 1) [sh] (levelIterStart t.root?) t
          hdecF hq hnd1 hmem1 hxtop hlen1
      have hkat : Shape.kidsAt? p sh = some (a ++ Shape.node x tk :: b) := by
        rw [Shape.kidsAtF?] at hkf
        rcases hk1 : Shape.kidsAt? p sh with _ | r
        · rw [hk1] at hkf
          have hkf' : (none : Option (List Shape))
              = some (a ++ Shape.node x tk :: b) := hkf
          simp at hkf'
        · rw [hk1] at hkf
          exact hkf
      rw [hrun, Except.ok.injEq] at h
      subst h
      apply inv_of_shape (Shape.setKids p ((a ++ b) ++ tk) sh)
      exact splice_shape_inv t sh p x dp a b tk hsh hdp hkat _ rfl

/-- `remove` — in all three calling conventions — preserves the invariant,
provided a supplied parent argument denotes an in-tree node. -/
theorem remove_inv {α : Type} [DecidableEq α] (t t' : NaryTreeSt α)
    (obj? : Option α) (parent? : Option NodeId)
    (hinv : Inv t)
    (hpar : ∀ p, parent? = some p → ∃ sh, IsShapeOf t sh ∧ p ∈ sh.ids)
    (h : NaryTreeSt.remove obj? parent? t = .ok t') : Inv t' := by
  cases obj? with
  | none =>
    cases hr : t.root? with
    | none =>
      rw [NaryTreeSt.remove, NaryTreeSt.removeRootPromote, hr] at h
      simp at h
    | some r =>
      obtain ⟨sh, hsh⟩ := shape_of_inv_root hinv r hr
      exact removeRootPromote_inv t t' sh hsh h
  | some v =>
    cases parent? with
    | none =>
      cases hr : t.root? with
      | none =>
        have hempty : levelSeq t.heap (t.size + 1) (levelIterStart t.root?) = .ok [] := by
          rw [hr]
          exact levelSeq_none t.heap (t.size + 1) (by omega)
        rw [NaryTreeSt.remove] at h
        simp [NaryTreeSt.getNode, hempty, NaryTreeSt.findFirst] at h
      | some r =>
        obtain ⟨sh, hsh⟩ := shape_of_inv_root hinv r hr
        obtain ⟨L, hrunL, hperm⟩ := levelList_of_shape t sh hsh
        have hrun' : levelSeq t.heap (t.size + 1) (levelIterStart t.root?) = .ok L := hrunL
        rw [NaryTreeSt.remove] at h
        simp only [NaryTreeSt.getNode, hrun'] at h
        rcases hfind : NaryTreeSt.findFirst t.heap L v with _ | x
        · rw [hfind] at h
          simp at h
        · rw [hfind] at h
          have hfind' : L.find? (fun n => NaryTreeSt.valueAtIs t.heap n v) = some x := hfind
          have hxL : x ∈ L := List.mem_of_find?_eq_some hfind'
          have hxids : x ∈ sh.ids := hperm.mem_iff.mp hxL
          exact remove_found_inv t t' sh x hsh hxids h
    | some p =>
      obtain ⟨sh, hsh, hpmem⟩ := hpar p rfl
      obtain ⟨ks, hks⟩ := kidsAt_exists p sh hpmem
      obtain ⟨d2, hd2, hch2, hdecks2⟩ := kidsAt_decode t.heap p ks sh hsh.2.1 hks
      have hsubdec : decodeB t.heap (Shape.node p ks) = true := by
        simp [decodeB, hd2, hch2, hdecks2]
      have hids2 : Shape.idsF [Shape.node p ks] = p :: Shape.idsF ks := by
        simp [Shape.idsF, Shape.ids]
      have hcard : (p :: Shape.idsF ks).length ≤ sh.ids.length := by
        have hle := kidsAt_sub_multiset p ks sh hks
        have h0 := Multiset.card_le_card hle
        simpa using h0
      have hlensub : (Shape.idsF [Shape.node p ks]).length < t.size + 1 := by
        rw [hids2]
        have hsz := hsh.2.2.2.2
        simp only [List.length_cons] at hcard ⊢
        omega
      obtain ⟨L', hrunSub, hpermSub⟩ := levelSeq_forest t.heap (t.size + 1)
        [Shape.node p ks] (levelIterStart (some p))
        (by simp [decodeF, hsubdec]) (by simp [levelIterStart, Shape.top]) hlensub
      rw [NaryTreeSt.remove] at h
      simp only [hrunSub] at h
      rcases hfind : NaryTreeSt.findLast t.heap L' v with _ | x
      · rw [hfind] at h
        simp at h
      · rw [hfind] at h
        have hfind' : L'.reverse.find? (fun n => NaryTreeSt.valueAtIs t.heap n v)
            = some x := hfind
        have hxL : x ∈ L' := by
          have h0 : x ∈ L'.reverse := List.mem_of_find?_eq_some hfind'
          simpa using h0
        have hxids : x ∈ sh.ids := by
          have h1 : x ∈ Shape.idsF [Shape.node p ks] := hpermSub.mem_iff.mp hxL
          have h2 : x ∈ p :: Shape.idsF ks := by
            rw [hids2] at h1
            exact h1
          exact (kidsAt_sub_nodup p ks sh hsh.2.2.1 hks).2 x h2
        exact remove_found_inv t t' sh x hsh hxids h

/-- The empty tree satisfies the invariant. -/
theorem inv_empty {α : Type} : Inv (emptyNaryTree α) := rfl

/-- A helper for `parentOkB`: an accepted parent argument lies in the realized
shape's id list. -/
theorem parent_in_shape {α : Type} (t : NaryTreeSt α) (sh : Shape) (p : NodeId)
    (hsh : IsShapeOf t sh) (L : List NodeId)
    (hrunL : t.levelList t.root? = .ok L) (hperm : L.Perm sh.ids)
    (hok : (match t.levelList t.root? with
            | .ok l => decide (p ∈ l)
            | .error _ => false) = true) : p ∈ sh.ids := by
  rw [hrunL] at hok
  exact hperm.mem_iff.mp (of_decide_eq_true hok)

/-- Each call of the modelled API, executed with in-tree parent arguments,
preserves the invariant. -/
theorem step_inv {α : Type} [DecidableEq α] (t t' : NaryTreeSt α) (op : TreeOp α)
    (hinv : Inv t) (hok : parentOkB t op = true) (h : stepOp t op = .ok t') : Inv t' := by
  cases op with
  | add v => exact add_inv t t' v hinv h
  | addFirst v p =>
    cases hr : t.root? with
    | none =>
      have hsz := size_zero_of_root_none hinv hr
      have hLempty : t.levelList t.root? = .ok [] := by
        rw [hr]
        exact levelSeq_none t.heap (t.size + 1) (by omega)
      simp [parentOkB, hLempty] at hok
    | some r =>
      obtain ⟨sh, hsh⟩ := shape_of_inv_root hinv r hr
      obtain ⟨L, hrunL, hperm⟩ := levelList_of_shape t sh hsh
      exact addAsFirstChild_inv t t' v p sh hsh
        (parent_in_shape t sh p hsh L hrunL hperm hok) h
  | addLast v p =>
    cases hr : t.root? with
    | none =>
      have hsz := size_zero_of_root_none hinv hr
      have hLempty : t.levelList t.root? = .ok [] := by
        rw [hr]
        exact levelSeq_none t.heap (t.size + 1) (by omega)
      simp [parentOkB, hLempty] at hok
    | some r =>
      obtain ⟨sh, hsh⟩ := shape_of_inv_root hinv r hr
      obtain ⟨L, hrunL, hperm⟩ := levelList_of_shape t sh hsh
      exact addAsLastChild_inv t t' v p sh hsh
        (parent_in_shape t sh p hsh L hrunL hperm hok) h
  | addAtPos v p pos =>
    cases hr : t.root? with
    | none =>
      have hsz := size_zero_of_root_none hinv hr
      have hLempty : t.levelList t.root? = .ok [] := by
        rw [hr]
        exact levelSeq_none t.heap (t.size + 1) (by omega)
      simp [parentOkB, hLempty] at hok
    | some r =>
      obtain ⟨sh, hsh⟩ := shape_of_inv_root hinv r hr
      obtain ⟨L, hrunL, hperm⟩ := levelList_of_shape t sh hsh
      exact addAtPosition_inv t t' v p pos sh hsh
        (parent_in_shape t sh p hsh L hrunL hperm hok) h
  | removeNoArg =>
    exact remove_inv t t' none none hinv (fun p hp => by cases hp) h
  | removeVal v =>
    exact remove_inv t t' (some v) none hinv (fun p hp => by cases hp) h
  | removeValIn v p =>
    cases hr : t.root? with
    | none =>
      have hsz := size_zero_of_root_none hinv hr
      have hLempty : t.levelList t.root? = .ok [] := by
        rw [hr]
        exact levelSeq_none t.heap (t.size + 1) (by omega)
      simp [parentOkB, hLempty] at hok
    | some r =>
      obtain ⟨sh, hsh⟩ := shape_of_inv_root hinv r hr
      obtain ⟨L, hrunL, hperm⟩ := levelList_of_shape t sh hsh
      refine remove_inv t t' (some v) (some p) hinv ?_ h
      intro q hq
      injection hq with hq
      subst hq
      exact ⟨sh, hsh, parent_in_shape t sh p hsh L hrunL hperm hok⟩

/-- A call sequence with in-tree parent arguments, started on a well-formed
tree, ends (when it does not raise) on a well-formed tree. -/
theorem inv_run {α : Type} [DecidableEq α] :
    ∀ (ops : List (TreeOp α)) (t t' : NaryTreeSt α), Inv t →
      okTrace t ops = true → runOps t ops = .ok t' → Inv t' := by
  intro ops
  induction ops with
  | nil =>
    intro t t' hinv _ h
    rw [runOps] at h
    injection h with h
    subst h
    exact hinv
  | cons op rest ih =>
    intro t t' hinv hok hrun
    rw [okTrace] at hok
    rw [runOps] at hrun
    cases hstep : stepOp t op with
    | error e =>
      rw [hstep] at hrun
      simp at hrun
    | ok t₁ =>
      rw [hstep] at hrun
      rw [hstep] at hok
      rw [Bool.and_eq_true] at hok
      exact ih t₁ t' (step_inv t t₁ op hinv hok.1 hstep) hok.2 hrun

/-- `add` on a good tree succeeds and leaves a good, rooted tree. -/
theorem add_ok {α : Type} (t : NaryTreeSt α) (v : α) (hg : GoodT t) :
    ∃ t', t.add v = .ok t' ∧ GoodT t' ∧ RootedT t' := by
  rcases hg with ⟨hs, _⟩ | ⟨r, d, hr, hd, hs⟩
  · have heq : t.add v = .ok
        { heap := t.heap.set t.next ⟨v, []⟩, next := t.next + 1,
          root? := some t.next, size := t.size + 1, modCount := t.modCount + 1 } := by
      simp [NaryTreeSt.add, hs]
    exact ⟨_, heq, Or.inr ⟨t.next, ⟨v, []⟩, rfl, Heap.set_same _ _ _, by simp⟩,
      ⟨t.next, ⟨v, []⟩, rfl, Heap.set_same _ _ _⟩⟩
  · have heq : t.add v = .ok
        { heap := (t.heap.set t.next ⟨v, []⟩).set r ⟨d.value, d.children ++ [t.next]⟩,
          next := t.next + 1, root? := t.root?,
          size := t.size + 1, modCount := t.modCount + 1 } := by
      simp [NaryTreeSt.add, hs, hr, hd]
    exact ⟨_, heq, Or.inr ⟨r, _, hr, Heap.set_same _ _ _, by simp⟩,
      ⟨r, _, hr, Heap.set_same _ _ _⟩⟩

/-- `addAsFirstChild` under a live node succeeds and preserves the root and
every live node (in particular goodness and rootedness). -/
theorem addAsFirstChild_ok {α : Type} (t : NaryTreeSt α) (v : α) (p : NodeId)
    (d : NodeData α) (hd : t.heap p = some d) :
    ∃ t', t.addAsFirstChild v p = .ok t' ∧ t'.root? = t.root? ∧
      t'.size = t.size + 1 ∧
      (∀ q, (t.heap q).isSome → (t'.heap q).isSome) := by
  have heq : t.addAsFirstChild v p = .ok
      { heap := (t.heap.set t.next ⟨v, []⟩).set p ⟨d.value, t.next :: d.children⟩,
        next := t.next + 1, root? := t.root?,
        size := t.size + 1, modCount := t.modCount + 1 } := by
    simp [NaryTreeSt.addAsFirstChild, hd]
  refine ⟨_, heq, rfl, rfl, ?_⟩
  intro q hq
  by_cases hqp : q = p
  · subst hqp; simp [Heap.set_same]
  · by_cases hqn : q = t.next
    · subst hqn
      simp [Heap.set, hqp]
    · dsimp only
      rw [Heap.set_other _ _ _ _ hqp, Heap.set_other _ _ _ _ hqn]
      exact hq

/-- Phase 1 (`configPass`) never raises on a good tree: it returns a good
tree, reports whether any config element was seen, and preserves rootedness
(establishing it whenever it added something). -/
theorem configPass_ok (t : NaryTreeSt Nat) (stack : List (Option Nat))
    (l : List (Nat × QRElement)) (hg : GoodT t) :
    ∃ t' st', configPass t stack l = .ok (t', st', l.any (fun p => isConfigEl p.2)) ∧
      GoodT t' ∧ (RootedT t → RootedT t') ∧
      (l.any (fun p => isConfigEl p.2) = true → RootedT t') := by
  induction l generalizing t stack with
  | nil => exact ⟨t, stack, by simp [configPass], hg, id, by simp⟩
  | cons hd tl ih =>
    obtain ⟨i, e⟩ := hd
    by_cases hc : e.type = "config"
    · obtain ⟨t₁, hadd, hg₁, hr₁⟩ := add_ok t i hg
      obtain ⟨t', st', hrec, hg', hrpres, _⟩ := ih t₁ (some i :: stack) hg₁
      refine ⟨t', st', ?_, hg', fun _ => hrpres hr₁, fun _ => hrpres hr₁⟩
      simp [configPass, hc, hadd, hrec, isConfigEl]
    · obtain ⟨t', st', hrec, hg', hrpres, hb⟩ := ih t stack hg
      refine ⟨t', st', ?_, hg', hrpres, ?_⟩
      · simpa [configPass, hc, isConfigEl] using hrec
      · intro hany
        simp only [List.any_cons, isConfigEl, Bool.or_eq_true] at hany
        rcases hany with hh | htl
        · simp [hc] at hh
        · exact hb htl

/-- Phase 2 (`appPass`) on a good, rooted tree never raises, reports `true`
whenever an `App` open tag is present, and preserves goodness and rootedness. -/
theorem appPass_ok (t : NaryTreeSt Nat) (stack : List (Option Nat))
    (l : List (Nat × QRElement)) (hg : GoodT t) (hr : RootedT t) :
    ∃ t' st' b, appPass t stack l = .ok (t', st', b) ∧
      GoodT t' ∧ RootedT t' ∧
      (l.any (fun p => isAppOpen p.2) = true → b = true) := by
  induction l generalizing t stack with
  | nil => exact ⟨t, stack, false, by simp [appPass], hg, hr, by simp⟩
  | cons hd tl ih =>
    obtain ⟨i, e⟩ := hd
    by_cases ha : e.name = "App" ∧ e.subtype = "opentag"
    · obtain ⟨r, d, hroot, hheap⟩ := hr
      obtain ⟨t₁, hadd, hroot₁, hsz₁, hlive₁⟩ := addAsFirstChild_ok t i r d hheap
      have hr₁ : RootedT t₁ := by
        obtain ⟨d', hd'⟩ := Option.isSome_iff_exists.mp (hlive₁ r (by simp [hheap]))
        exact ⟨r, d', by rw [hroot₁, hroot], hd'⟩
      have hg₁ : GoodT t₁ := by
        obtain ⟨r', d', hr', hd'⟩ := hr₁
        exact Or.inr ⟨r', d', hr', hd', by omega⟩
      obtain ⟨t', st', b, hrec, hg', hr', _⟩ := ih t₁ (some i :: stack) hg₁ hr₁
      refine ⟨t', st', true, ?_, hg', hr', fun _ => rfl⟩
      simp [appPass, ha, hroot, hadd, hrec]
    · obtain ⟨t', st', b, hrec, hg', hr', himp⟩ := ih t stack hg hr
      refine ⟨t', st', b, ?_, hg', hr', ?_⟩
      · simp only [appPass, if_neg ha]
        exact hrec
      · intro hany
        apply himp
        simp only [List.any_cons, Bool.or_eq_true, isAppOpen,
          Bool.and_eq_true, decide_eq_true_eq] at hany
        rcases hany with hh | ht
        · exact absurd hh ha
        · simpa [isAppOpen] using ht

/-- Any error of the closing-tag validation pass is the missing-closing-tag
`SyntaxError` for some open-tag component of the scanned list that has no
closer in the whole list. -/
theorem validateClosers_error_shape (all : List QRElement) (l : List QRElement)
    (err : JSErr) (h : validateClosers all l = .error err) :
    ∃ e, e ∈ l ∧ err = .syntaxError (missingCloserMsg e.name) ∧
      e.type = "component" ∧ e.subtype = "opentag" ∧ hasCloser all e.name = false := by
  induction l with
  | nil => simp [validateClosers] at h
  | cons hd tl ih =>
    by_cases hc : hd.type = "component" ∧ hd.subtype = "opentag" ∧ ¬ hasCloser all hd.name
    · rw [validateClosers, if_pos hc] at h
      obtain ⟨h1, h2, h3⟩ := hc
      exact ⟨hd, by simp, by injection h with h'; exact h'.symm ▸ rfl, h1, h2, by simpa using h3⟩
    · rw [validateClosers, if_neg hc] at h
      obtain ⟨e, hm, he⟩ := ih h
      exact ⟨e, by simp [hm], he⟩

/-- `any` over an enumerated list testing only the elements. -/
theorem any_enumFrom (l : List QRElement) (f : QRElement → Bool) (n : Nat) :
    (l.enumFrom n).any (fun p => f p.2) = l.any f := by
  induction l generalizing n with
  | nil => rfl
  | cons hd tl ih => simp [List.enumFrom, List.any_cons, ih]

/-- When an `App` open tag is present and the closing-tag validation fails,
phases 2-4 surface exactly the validation error. -/
theorem buildAfterConfig_validation_error (elems table : List QRElement)
    (stack2 : List (Option Nat)) (t2 : NaryTreeSt Nat)
    (hg : GoodT t2) (hr : RootedT t2)
    (happ : elems.any isAppOpen = true)
    (err : JSErr) (hval : validateClosers elems elems = .error err) :
    buildAfterConfig elems table stack2 t2 = .error err := by
  obtain ⟨t3, st3, b, hap, _, _, himp⟩ := appPass_ok t2 stack2 elems.enum hg hr
  have hb : b = true := by
    apply himp
    have henum : List.enum elems = List.enumFrom 0 elems := rfl
    rw [henum, any_enumFrom]
    exact happ
  subst hb
  simp [buildAfterConfig, hap, hval]

/-!  ## Claim theorems (with their supporting lemmas above)  -/

/-- C1, counterexample: a level-order traversal of a three-node tree is
started and yields the root; a structural mutation (`addAsLastChild`, which
increments the version counter) happens before the next pull; the next pull
succeeds normally — it even reflects the mutated structure — instead of
raising the `ReferenceError` the claim requires. -/
theorem c1_mutation_not_detected :
    (runOps (emptyNaryTree Nat) c1ops).isOk = true ∧
    (NaryTreeSt.addAsLastChild 13 0 c1tree).isOk = true ∧
    c1treeMut.modCount = c1tree.modCount + 1 ∧
    levelIterNext c1tree.heap (levelIterStart (some 0)) =
      .ok (some (0, ⟨[], some 0⟩)) ∧
    levelIterNext c1treeMut.heap ⟨[], some 0⟩ =
      .ok (some (1, ⟨[2, 3], some 1⟩)) := by
  refine ⟨by decide, by decide, by decide, by decide, by decide⟩

/-- C1, amended: the level-order and pre-order generators never consult the
structural-version counter; a pull returns normally against every heap and
iterator state, so mutation between two pulled elements is silently tolerated
(the next element is produced from the current, mutated structure) and no
`ReferenceError` is ever raised. -/
theorem c1_pulls_never_raise :
    (∀ (α : Type) (h : Heap α) (s : LevelIterSt), ∃ r, levelIterNext h s = .ok r) ∧
    (∀ (α : Type) (h : Heap α) (s : PreIterSt), ∃ r, preIterNext h s = .ok r) := by
  constructor
  · intro α h s
    unfold levelIterNext
    rcases hq : (match s.pending with
      | none => s.queue
      | some p => s.queue ++ NaryTreeSt.childrenOf h p) with _ | ⟨n, rest⟩ <;>
      simp [hq]
  · intro α h s
    unfold preIterNext
    rcases hq : preIterPop (match s.pending with
      | none => s.stack
      | some p => NaryTreeSt.childrenOf h p :: s.stack) with _ | ⟨n, st'⟩ <;>
      simp [hq]

/-- C2: evaluation at the failing input.  The tree has 3 nodes; the subtree
rooted at value 2 has k = 2 nodes; `removeSubtree` succeeds and detaches the
whole subtree (only the root remains reachable), but decrements `size()` by
exactly 1, leaving `size() = 2` where the claim requires `3 - k = 1`.  The
other two contract points hold: a non-matching value raises `ReferenceError`,
and removing the root's value clears the tree. -/
theorem c2_removeSubtree_size_drops_by_one :
    c2tree.size = 3 ∧
    c2after.isOk = true ∧
    (okD c2after).size = 2 ∧
    NaryTreeSt.levelList (okD c2after) (okD c2after).root? = .ok [0] ∧
    NaryTreeSt.removeSubtree (some 99) none c2tree =
      .error (.referenceError "The specified object was not found in this n-ary tree.") ∧
    (NaryTreeSt.removeSubtree (some 1) none c2tree).isOk = true ∧
    (okD (NaryTreeSt.removeSubtree (some 1) none c2tree)).root? = none ∧
    (okD (NaryTreeSt.removeSubtree (some 1) none c2tree)).size = 0 := by
  refine ⟨by decide, by decide, by decide, by decide, by rfl, by decide, by decide, by decide⟩

/-- C3: evaluation at the failing input.  On the exact input
`<App><Header/></App>` the scan cursor, advanced one character past each
consumed tag (`codeIndex = endIndex + 1` followed by the loop's
`codeIndex++`), skips the `<` of `<Header/>`; the lexer then sees `>` before
`<` and raises the unmatched-bracket `SyntaxError` instead of returning a
tree.  The separated variant `<App> <Header/> </App>` produces exactly the
tree the claim describes: size 3, a synthesized `Config` root (table index 3),
the `App` element (index 0) as the root's only child and the `Header` element
(index 1) as `App`'s only child. -/
theorem c3_adjacent_tags_raise :
    isSyntaxErr c3parse = true ∧
    c3parse = .error (.syntaxError
      "The markup code is missing an opening '<' character.  Reference: /App>") ∧
    c3parseSpaced.isOk = true ∧
    c3r.tree.size = 3 ∧
    c3r.tree.root? = some 0 ∧
    NaryTreeSt.childrenOf c3r.tree.heap 0 = [1] ∧
    NaryTreeSt.childrenOf c3r.tree.heap 1 = [2] ∧
    NaryTreeSt.childrenOf c3r.tree.heap 2 = [] ∧
    NaryTreeSt.valueAtIs c3r.tree.heap 0 3 = true ∧
    NaryTreeSt.valueAtIs c3r.tree.heap 1 0 = true ∧
    NaryTreeSt.valueAtIs c3r.tree.heap 2 1 = true ∧
    (c3r.elems.get? 3).map QRElement.name = some "Config" ∧
    (c3r.elems.get? 3).map QRElement.type = some "config" ∧
    (c3r.elems.get? 0).map QRElement.name = some "App" ∧
    (c3r.elems.get? 1).map QRElement.name = some "Header" := by
  refine ⟨by decide, by rfl, by decide, by decide, by decide, by decide, by decide, by decide,
    by decide, by decide, by decide, by decide, by decide, by decide, by decide⟩

/-- C7, counterexample: the input `<App> <Foo> </Bar> </App>` has mismatched
nesting, yet `parseMarkup` raises the missing-closing-tag `SyntaxError` for
`Foo` (the closing-tag validation pass runs before the nesting check), whose
message does not mention `Bar` at all — refuting the claim that every
mismatched-nesting input gets an error naming both tags. -/
theorem c7_mismatch_error_names_one_tag :
    c7bad = .error (.syntaxError (missingCloserMsg "Foo")) ∧
    strContains (missingCloserMsg "Foo") "Bar" = false := by
  exact ⟨by rfl, by decide⟩

/-- C7, amended: when every open tag has a matching closing tag somewhere
(so the validation pass passes) and a close tag does not match the most
recently opened tag, `parseMarkup` raises the overlap `SyntaxError` naming
both tags: parsing `<App> <Foo> </Bar> </Foo> </App>` yields the message
naming `Foo` and `/Bar`. -/
theorem c7_overlap_error_names_both_tags :
    c7good = .error (.syntaxError (overlapMsg "Foo" "/Bar")) ∧
    strContains (overlapMsg "Foo" "/Bar") "Foo" = true ∧
    strContains (overlapMsg "Foo" "/Bar") "Bar" = true := by
  exact ⟨by rfl, by decide, by decide⟩

/-- C10: `parseMarkup` called with `undefined`, `null`, or any non-string
value returns the instance's tree unchanged — the very same state, so size,
structure and the version counter are untouched — and raises nothing. -/
theorem c10_non_string_returns_tree_unchanged :
    ∀ t : NaryTreeSt Nat,
      parseMarkup t .undef = .ok ⟨t, []⟩ ∧
      parseMarkup t .null = .ok ⟨t, []⟩ ∧
      parseMarkup t .nonString = .ok ⟨t, []⟩ := by
  intro t
  exact ⟨rfl, rfl, rfl⟩

/-- C6, counterexample: the input `<Foo>` lexes to an open-tag component
`Foo` with no corresponding close tag anywhere in the lexed list, yet
`parseMarkup` raises the missing-`App` `SyntaxError` — whose message does not
name the missing `</Foo>` closer — because the mandatory-`App` check runs
before the closing-tag validation. -/
theorem c6_missing_closer_not_named :
    lexMarkup "<Foo>" =
      .ok [{ name := "Foo", type := "component", subtype := "opentag", attributes := [] }] ∧
    hasCloser [{ name := "Foo", type := "component", subtype := "opentag", attributes := [] }]
      "Foo" = false ∧
    c6foo = .error (.syntaxError missingAppMsg) ∧
    strContains missingAppMsg "Foo" = false := by
  exact ⟨by decide, by decide, by rfl, by decide⟩

/-- C6, amended: for every markup whose lexed element list contains an `App`
open tag, if the closing-tag validation finds a failure — i.e. some open-tag
component has no matching close-tag component anywhere in the list — then
`parseMarkup` on a fresh instance raises exactly that `SyntaxError`, and the
error is the missing-closing-tag diagnostic naming such a component. -/
theorem c6_unclosed_component_raises_missing_closer
    (code : String) (elems : List QRElement) (err : JSErr)
    (hlex : lexMarkup code = .ok elems)
    (happ : elems.any isAppOpen = true)
    (hval : validateClosers elems elems = .error err) :
    parseMarkup (emptyNaryTree Nat) (.str code) = .error err ∧
    ∃ e, e ∈ elems ∧ err = .syntaxError (missingCloserMsg e.name) ∧
      e.type = "component" ∧ e.subtype = "opentag" ∧ hasCloser elems e.name = false := by
  refine ⟨?_, validateClosers_error_shape elems elems err hval⟩
  show (match lexMarkup code with
        | .error e => .error e
        | .ok elems => buildTree elems (emptyNaryTree Nat)) = Except.error err
  rw [hlex]
  show buildTree elems (emptyNaryTree Nat) = Except.error err
  obtain ⟨t1, st1, hc1, hg1, _, hrb1⟩ :=
    configPass_ok (emptyNaryTree Nat) [] elems.enum goodT_empty
  by_cases hcfg : (elems.enum).any (fun p => isConfigEl p.2) = true
  · rw [hcfg] at hc1
    have := buildAfterConfig_validation_error elems elems st1 t1 hg1 (hrb1 hcfg) happ err hval
    simp [buildTree, hc1, this]
  · rw [Bool.not_eq_true] at hcfg
    rw [hcfg] at hc1
    obtain ⟨t2, hadd, hg2, hr2⟩ := add_ok t1 elems.length hg1
    have hrest := buildAfterConfig_validation_error elems (elems ++
      [{ name := "Config", type := "config", subtype := "", attributes := [] }])
      ((if elems.isEmpty then none else some 0) :: st1) t2 hg2 hr2 happ err hval
    simp only [List.isEmpty_iff] at hrest
    simp [buildTree, hc1, hadd]
    exact hrest

set_option maxRecDepth 8192 in
/-- C6, witness: the concrete markup `<App> <Foo> </App>` instantiates the
amended theorem — it lexes to `c6wElems`, contains an `App` open tag, its
validation fails for `Foo`, and parsing raises the missing-`</Foo>` error. -/
theorem c6_witness :
    lexMarkup c6wCode = .ok c6wElems ∧
    c6wElems.any isAppOpen = true ∧
    validateClosers c6wElems c6wElems = .error (.syntaxError (missingCloserMsg "Foo")) ∧
    parseMarkup (emptyNaryTree Nat) (.str c6wCode) =
      .error (.syntaxError (missingCloserMsg "Foo")) ∧
    (∃ e, e ∈ c6wElems ∧ .syntaxError (missingCloserMsg "Foo") =
        JSErr.syntaxError (missingCloserMsg e.name) ∧
      e.type = "component" ∧ e.subtype = "opentag" ∧ hasCloser c6wElems e.name = false) := by
  refine ⟨by decide, by decide, by decide, ?_⟩
  exact c6_unclosed_component_raises_missing_closer c6wCode c6wElems
    (.syntaxError (missingCloserMsg "Foo")) (by decide) (by decide) (by decide)

/-- C5: multiplier resolution at match index 0 with a fresh name array.
`useState*3` with default base `appState` resolves to 3 with synthetic names
`appState1..appState3` and their lowercase/capitalized variants;
`hooks[login,logout]` resolves to 2 with names `login`, `logout` and
mixed-case `Login`, `Logout`; bare `useState` resolves to 1 with `appState1`;
a family absent from every attribute value resolves to 0 on the first call. -/
theorem c5_multiplier_resolution :
    findMultiplier c5elMult "useState" "appState" 0 =
      .ok (3, [⟨"appState1", "appstate1", "Appstate1"⟩,
               ⟨"appState2", "appstate2", "Appstate2"⟩,
               ⟨"appState3", "appstate3", "Appstate3"⟩]) ∧
    findMultiplier c5elList "hooks" "formField" 0 =
      .ok (2, [⟨"login", "login", "Login"⟩, ⟨"logout", "logout", "Logout"⟩]) ∧
    findMultiplier c5elBare "useState" "appState" 0 =
      .ok (1, [⟨"appState1", "appstate1", "Appstate1"⟩]) ∧
    findMultiplier c5elAbsent "useState" "appState" 0 = .ok (0, []) := by
  refine ⟨by decide, by decide, by decide, by decide⟩

/-- C8 counterexample: with a missing (`undefined`/`null`) search argument only
`contains` throws a `TypeError`. On a nonempty tree `get`, `getNode`,
`getByObjectProperty` and `getNodeByObjectProperty` do not throw at all: they
return the root's value (resp. the root node reference) instead of rejecting
the call. -/
theorem c8_missing_argument_returns_root :
    NaryTreeSt.get c1tree none = .ok (some 10) ∧
    NaryTreeSt.getNode c1tree none = .ok (some 0) ∧
    NaryTreeSt.getByObjectProperty c8jtree none = .ok (some [("id", 7)]) ∧
    NaryTreeSt.getNodeByObjectProperty c8jtree none = .ok (some 0) := by
  refine ⟨by decide, by decide, by decide, by decide⟩

/-- C8 amended: on a well-formed tree, value searches never throw. `contains`
with a missing search value raises the `TypeError`, but `get`/`getNode` with a
missing argument instead return the root's value / the root reference. With a
present search value every call scans the level-order node list (a permutation
of the tree's node ids): `contains` returns whether a match exists, `get` and
`getNode` the first match's value / node reference, and when no node matches
the results are `ok false` / `ok none` — not-found never throws. -/
theorem c8_search_behaviour {α : Type} [DecidableEq α] (t : NaryTreeSt α) (sh : Shape)
    (hsh : IsShapeOf t sh) :
    (∀ p?, t.contains none p? = .error (.typeError
      "A valid child object must be specified when searching the n-ary tree for an object.")) ∧
    (∃ d, t.heap sh.top = some d ∧ t.get none = .ok (some d.value) ∧
      t.getNode none = .ok (some sh.top)) ∧
    (∀ v : α, ∃ L : List NodeId, L.Perm sh.ids ∧
      t.contains (some v) none = .ok (L.any (fun n => NaryTreeSt.valueAtIs t.heap n v)) ∧
      t.get (some v) = .ok ((NaryTreeSt.findFirst t.heap L v).bind
        (fun n => (t.heap n).map NodeData.value)) ∧
      t.getNode (some v) = .ok (NaryTreeSt.findFirst t.heap L v) ∧
      ((∀ n ∈ L, NaryTreeSt.valueAtIs t.heap n v = false) →
        t.contains (some v) none = .ok false ∧
        t.get (some v) = .ok none ∧
        t.getNode (some v) = .ok none)) := by
  obtain ⟨L, hrun, hperm⟩ := levelList_of_shape t sh hsh
  have hrun' : levelSeq t.heap (t.size + 1) (levelIterStart t.root?) = .ok L := hrun
  obtain ⟨hroot, hdec, hnd, hbound, hsize⟩ := hsh
  have hd : ∃ d, t.heap sh.top = some d := by
    cases sh with
    | node i kids =>
      cases hh : t.heap i with
      | none => simp [decodeB, hh] at hdec
      | some d => exact ⟨d, hh⟩
  obtain ⟨d, hdd⟩ := hd
  refine ⟨fun p? => rfl, ⟨d, hdd, ?_, ?_⟩, ?_⟩
  · simp [NaryTreeSt.get, hroot, hdd]
  · simp [NaryTreeSt.getNode, hroot]
  · intro v
    refine ⟨L, hperm, ?_, ?_, ?_, ?_⟩
    · simp [NaryTreeSt.contains, hrun']
    · simp [NaryTreeSt.get, hrun']
    · simp [NaryTreeSt.getNode, hrun']
    · intro hall
      have hany : (L.any fun n => NaryTreeSt.valueAtIs t.heap n v) = false := by
        by_contra hne
        have htrue : (L.any fun n => NaryTreeSt.valueAtIs t.heap n v) = true := by
          cases hb : (L.any fun n => NaryTreeSt.valueAtIs t.heap n v) with
          | false => exact absurd hb hne
          | true => rfl
        obtain ⟨n, hn, hv⟩ := List.any_eq_true.mp htrue
        rw [hall n hn] at hv
        cases hv
      have hff : NaryTreeSt.findFirst t.heap L v = none := by
        simp only [NaryTreeSt.findFirst, List.find?_eq_none]
        intro n hn
        simp [hall n hn]
      refine ⟨?_, ?_, ?_⟩
      · simp [NaryTreeSt.contains, hrun', hany]
      · simp [NaryTreeSt.get, hrun', hff]
      · simp [NaryTreeSt.getNode, hrun', hff]

/-- C8 witness: the amended search theorem at the concrete three-node tree:
`contains` with a missing value throws, `getNode` with a missing argument
returns the root reference, and searching the absent value 99 misses every
node and returns `ok none`. -/
theorem c8_witness :
    c1tree.contains none none = .error (.typeError
      "A valid child object must be specified when searching the n-ary tree for an object.") ∧
    c1tree.getNode none = .ok (some 0) ∧
    c1tree.getNode (some 99) = .ok none := by
  have h := c8_search_behaviour c1tree (Shape.node 0 [Shape.node 1 [], Shape.node 2 []])
    ⟨by decide, by decide, by decide, by decide, by decide⟩
  obtain ⟨hmiss, ⟨d, hdd, hget, hgetNode⟩, hsearch⟩ := h
  obtain ⟨L, hperm, hc, hg, hn, hnotfound⟩ := hsearch 99
  refine ⟨hmiss none, hgetNode, ?_⟩
  refine (hnotfound ?_).2.2
  intro n hnL
  have hnids : n ∈ (Shape.node 0 [Shape.node 1 [], Shape.node 2 []]).ids := hperm.mem_iff.mp hnL
  have h3 : n = 0 ∨ n = 1 ∨ n = 2 := by
    simpa [Shape.ids, Shape.idsF] using hnids
  rcases h3 with h | h | h <;> subst h <;> decide

/-- C4 counterexample: the add methods only check that the parent argument is
an `NaryNode`, not that it is still in the tree. After removing the node
holding 2 and then attaching a child to that detached node, `_size` is 2 while
only the root is reachable — `size()` no longer counts the reachable nodes,
and the sequence is detectably improper (`okTrace` is false: a parent argument
was not in the tree when used). -/
theorem c4_stale_parent_breaks_size :
    runOps (emptyNaryTree Nat) c4ops = .ok c4tree ∧
    c4tree.size = 2 ∧
    c4tree.levelList c4tree.root? = .ok [0] ∧
    okTrace (emptyNaryTree Nat) c4ops = false := by
  refine ⟨rfl, by decide, by decide, by decide⟩

/-- C4: [amended] after every sequence of `add`/`addAsFirstChild`/
`addAsLastChild`/`addAtPosition`/`remove` calls in which each parent argument
denotes a node in the tree at the moment of the call, `size()` equals the
number of live nodes reachable from the root: the level-order enumeration from
the root succeeds, lists no node twice, and its length is the stored size. -/
theorem c4_size_eq_reachable {α : Type} [DecidableEq α] (ops : List (TreeOp α))
    (t : NaryTreeSt α)
    (hok : okTrace (emptyNaryTree α) ops = true)
    (hrun : runOps (emptyNaryTree α) ops = .ok t) :
    ∃ L, t.levelList t.root? = .ok L ∧ L.Nodup ∧ t.size = L.length := by
  have hinv : Inv t := inv_run ops (emptyNaryTree α) t inv_empty hok hrun
  cases hr : t.root? with
  | none =>
    have hsz := size_zero_of_root_none hinv hr
    refine ⟨[], ?_, List.nodup_nil, by simp [hsz]⟩
    show levelSeq t.heap (t.size + 1) (levelIterStart none) = .ok []
    exact levelSeq_none t.heap (t.size + 1) (by omega)
  | some r =>
    obtain ⟨sh, hsh⟩ := shape_of_inv_root hinv r hr
    obtain ⟨L, hrunL, hperm⟩ := levelList_of_shape t sh hsh
    rw [hr] at hrunL
    refine ⟨L, hrunL, ?_, ?_⟩
    · exact hperm.nodup_iff.mpr hsh.2.2.1
    · rw [hsh.2.2.2.2, hperm.length_eq]

/-- C4 witness: the amended size theorem at the concrete two-call sequence
that builds a root with one child. -/
theorem c4_witness :
    okTrace (emptyNaryTree Nat) [.add 1, .addLast 2 0] = true ∧
    ∃ L, c9tree.levelList c9tree.root? = .ok L ∧ L.Nodup ∧ c9tree.size = L.length := by
  refine ⟨by decide, ?_⟩
  exact c4_size_eq_reachable [.add 1, .addLast 2 0] c9tree (by decide) rfl

/-- C9 counterexample: on the two-node chain (root with a single child) the
code's `height()` returns 2 — the number of NODES on the longest root-to-leaf
path — while the longest root-to-leaf EDGE count of the realized shape is 1.
So `height` is not the edge count the claim describes (its own "leaf has
height 1" part already contradicts an edge count). -/
theorem c9_height_exceeds_edge_count :
    IsShapeOf c9tree c9shape ∧
    c9tree.height none = 2 ∧
    c9shape.edgeHeight = 1 := by
  refine ⟨⟨by decide, by decide, by decide, by decide, by decide⟩, by decide, by decide⟩

/-- C9 amended: `height` counts NODES on the longest root-to-leaf path, not
edges. It is 0 on an empty tree (`_size = 0`), 1 on a single leaf, and in
general the node-counted height `heightS` of the realized shape; with a node
argument it returns the node-counted height of the subtree rooted at that
node. -/
theorem c9_height_counts_nodes {α : Type} (t : NaryTreeSt α) :
    (t.size = 0 → ∀ n?, t.height n? = 0) ∧
    (∀ sh : Shape, IsShapeOf t sh →
      t.height none = sh.heightS ∧
      (∀ i, sh = Shape.node i [] → t.height none = 1) ∧
      (∀ sub : Shape, decodeB t.heap sub = true → sub.heightS ≤ t.size →
        t.height (some sub.top) = sub.heightS)) := by
  constructor
  · intro h0 n?
    simp [NaryTreeSt.height, h0]
  · intro sh hsh
    obtain ⟨hroot, hdec, _, _, hsize⟩ := hsh
    have hlen : 1 ≤ sh.ids.length := by
      cases sh with
      | node i kids => simp [Shape.ids]
    have hnz : ¬ t.size = 0 := by omega
    have hhs := heightS_le_ids_length sh
    have hmain : t.height none = sh.heightS := by
      unfold NaryTreeSt.height
      rw [if_neg hnz, hroot]
      exact heightAt_decode t.heap sh (t.size + 1) hdec (by omega)
    refine ⟨hmain, ?_, ?_⟩
    · intro i hi
      rw [hmain, hi]
      rfl
    · intro sub hsubdec hsuble
      unfold NaryTreeSt.height
      rw [if_neg hnz]
      exact heightAt_decode t.heap sub (t.size + 1) hsubdec (by omega)

/-- C9 witness: the amended height theorem applied to the concrete two-node
chain, for the whole tree and for the leaf subtree. -/
theorem c9_witness :
    c9tree.height none = c9shape.heightS ∧
    c9tree.height (some 1) = (Shape.node 1 []).heightS := by
  have h := (c9_height_counts_nodes c9tree).2 c9shape
    ⟨by decide, by decide, by decide, by decide, by decide⟩
  exact ⟨h.1, h.2.2 (Shape.node 1 []) (by decide) (by decide)⟩

end QRC
